import Mathlib

/-!
Verification of the SyncFromNotion Figma-plugin backend (code.ts, v1.2.0).

The development shallowly embeds the plugin's reconciliation ("upsert") engine:
the document tree is a forest of nodes, plugin data is a pair of string tags on
each node, and the message handler for sync-mapped-data is a pure function from
the page, the resolved template node, the record batch and the mapping rules to
a result carrying the mutated page and the created/updated counts.

Modelling conventions, each noted again at the definition it concerns:
- JS numbers are embedded as Int (the record values and geometry used by the
  engine are exact integers in every behaviour the claims mention).
- figma.getNodeByIdAsync is modelled as an oracle argument of type Option Node.
- Asynchronous font loading (figma.loadFontAsync) has no effect on the
  document tree and is dropped.
- setRangeListOptions(0, text.length, t) always spans the whole text in the
  source, so it is embedded as a listType field on the node.
- getPluginData returns the empty string for an unset key, so a node is
  "tagged" exactly when its pluginId field is nonempty.
-/

namespace SyncFromNotion

/-- Node types of the Figma scene graph that the engine distinguishes.
OTHER stands for any further childless node kind (vector, rectangle, ...). -/
inductive NType where
  | TEXT | FRAME | GROUP | INSTANCE | COMPONENT | OTHER
deriving DecidableEq, Repr

/-- Range list style, the TextNode.setRangeListOptions argument used by the
source: ORDERED for numbered lists, NONE for plain text. -/
inductive ListType where
  | NONE | ORDERED
deriving DecidableEq, Repr

/-- One node of the scene tree.  The fields are exactly the node state the
engine reads or writes: name, type, geometry, visibility, the two plugin-data
tags (empty string = unset), text content with its list style, and children. -/
structure Node where
  name : String
  ntype : NType
  x : Int
  y : Int
  width : Int
  height : Int
  visible : Bool
  pluginId : String
  componentTag : String
  characters : String
  listType : ListType
  children : List Node

/-- JS membership test for the children mixin: TEXT and leaf kinds have no
children property in the Figma API, the container kinds do. -/
def hasChildren : NType → Bool
  | .TEXT => false
  | .OTHER => false
  | _ => true

/-- A record value from the webhook payload: string, number, boolean or null.
Absent fields are represented by a failed lookup, mirroring undefined. -/
inductive Value where
  | str (s : String)
  | num (n : Int)
  | bool (b : Bool)
  | null
deriving DecidableEq, Repr

/-- One webhook record: an association list from field name to value. -/
abbrev RecordT := List (String × Value)

/-- Kind of a field mapping, the dataType field of the source interface. -/
inductive DataType where
  | text | image
deriving DecidableEq, Repr

/-- FieldMapping of the source: layer name inside the template, data field of
the webhook record, and the declared kind. -/
structure FieldMapping where
  layerName : String
  dataField : String
  dataType : DataType
deriving DecidableEq, Repr

/-- CARD_GAP constant of the source. -/
def CARD_GAP : Int := 20

/-- CARDS_PER_ROW constant of the source. -/
def CARDS_PER_ROW : Nat := 4

/-- JS String() conversion restricted to the embedded value type. -/
def valueToString : Value → String
  | .str s => s
  | .num n => toString n
  | .bool b => if b then "true" else "false"
  | .null => "null"

/-- JS falsiness of an embedded value (the values undefined would join null
are handled at the lookup sites). -/
def jsFalsy : Value → Bool
  | .str s => s = ""
  | .num n => n = 0
  | .bool b => !b
  | .null => true

/-- Key under which a record is processed, from the sync-mapped-data handler:
String(record[idField] || ("row-" + i)).  The || picks the positional
placeholder whenever the looked-up value is absent or JS-falsy. -/
def recordKey (record : RecordT) (idField : String) (i : Nat) : String :=
  match List.lookup idField record with
  | some v => if jsFalsy v then "row-" ++ toString i else valueToString v
  | none => "row-" ++ toString i

/-- Record field access as used by fillInstanceData: the value when present
and neither undefined nor null, otherwise none. -/
def presentValue (record : RecordT) (fld : String) : Option Value :=
  match List.lookup fld record with
  | some .null => none
  | some v => some v
  | none => none

/-- ASCII embedding of String.prototype.toLowerCase. -/
def jsToLower (s : String) : String := String.mk (s.data.map Char.toLower)

/-- ASCII embedding of String.prototype.trim. -/
def jsTrim (s : String) : String :=
  String.mk (((s.data.dropWhile Char.isWhitespace).reverse.dropWhile Char.isWhitespace).reverse)

/-- parseBoolean of the source: native booleans pass through, numbers compare
against zero, strings are lowercased and trimmed and then matched against the
truthy and falsy word lists, any other nonempty trimmed string is true, and
null falls to the final Boolean(val) which is false. -/
def parseBoolean (val : Value) : Bool :=
  match val with
  | .bool b => b
  | .num n => n ≠ 0
  | .str v =>
    let s := jsTrim (jsToLower v)
    if s = "true" ∨ s = "yes" ∨ s = "1" ∨ s = "checked" ∨ s = "ok" then true
    else if s = "false" ∨ s = "no" ∨ s = "0" ∨ s = "unchecked" ∨ s = "" ∨ s = "null" then false
    else decide (0 < s.length)
  | .null => false

/-- JS String.prototype.split on the newline character. -/
def splitOnNewline (cs : List Char) : List (List Char) :=
  match cs with
  | [] => [[]]
  | c :: rest =>
    match splitOnNewline rest with
    | [] => [[]]
    | l :: ls => if c = '\n' then [] :: l :: ls else (c :: l) :: ls

/-- Line splitting as rawValue.split of the source. -/
def splitLines (s : String) : List String :=
  (splitOnNewline s.data).map String.mk

/-- Matcher for the numberedPattern regex of the source: one or more digits,
a dot, one or more whitespace characters, anchored at the start.  Returns the
text after the matched prefix.  Greedy matching without backtracking agrees
with the regex here because a shorter digit run can never be followed by a
dot where the longest run was not. -/
def dropNumbering (cs : List Char) : Option (List Char) :=
  let digits := cs.takeWhile Char.isDigit
  let rest := cs.dropWhile Char.isDigit
  if digits.isEmpty then none
  else
    match rest with
    | '.' :: r2 =>
      let sp := r2.takeWhile Char.isWhitespace
      if sp.isEmpty then none else some (r2.dropWhile Char.isWhitespace)
    | _ => none

/-- numberedPattern.test on one line. -/
def testNumbered (line : String) : Bool := (dropNumbering line.data).isSome

/-- line.replace(numberedPattern, empty) on one line. -/
def replaceNumbering (line : String) : String :=
  match dropNumbering line.data with
  | some restChars => String.mk restChars
  | none => line

/-- parseAndApplyListStyle of the source, on the embedded text node: split the
raw value on newlines; if the first line starts with the numbered pattern,
strip the pattern from every line, store the joined text and style the whole
range ORDERED; otherwise store the raw value and style the range NONE. -/
def parseAndApplyListStyle (textNode : Node) (rawValue : String) : Node :=
  let lines := splitLines rawValue
  let isNumberedList := testNumbered (lines.headD "")
  if isNumberedList then
    let cleanedText := String.intercalate "\n" (lines.map replaceNumbering)
    { textNode with characters := cleanedText, listType := .ORDERED }
  else
    { textNode with characters := rawValue, listType := .NONE }

mutual

/-- findChildByName of the source, path form: depth-first over the given
child list, first match wins, checking each child name before descending into
children when the child has them.  The returned path is the index route to
the match. -/
def findPathList (name : String) : List Node → Option (List Nat)
  | [] => none
  | c :: cs =>
    if c.name = name then some [0]
    else
      match (if hasChildren c.ntype then findPathInside name c else none) with
      | some p => some (0 :: p)
      | none =>
        match findPathList name cs with
        | some [] => none
        | some (i :: r) => some ((i + 1) :: r)
        | none => none

/-- Descent of findPathList into one child node. -/
def findPathInside (name : String) : Node → Option (List Nat)
  | ⟨_, _, _, _, _, _, _, _, _, _, _, ch⟩ => findPathList name ch

end

mutual

/-- Subtree at an index path into a forest; none for an invalid path. -/
def subAtList : List Nat → List Node → Option Node
  | _, [] => none
  | [], _ :: _ => none
  | [0], c :: _ => some c
  | 0 :: r :: rs, c :: _ => subAtInside (r :: rs) c
  | (Nat.succ i) :: p, _ :: cs => subAtList (i :: p) cs

/-- Descent of subAtList into one node. -/
def subAtInside (p : List Nat) : Node → Option Node
  | ⟨_, _, _, _, _, _, _, _, _, _, _, ch⟩ => subAtList p ch

end

mutual

/-- In-place mutation of the node at an index path, the pure counterpart of
holding a reference into the scene tree and assigning to it.  Invalid paths
leave the forest unchanged. -/
def modAtList (f : Node → Node) : List Nat → List Node → List Node
  | _, [] => []
  | [], c :: cs => c :: cs
  | [0], c :: cs => f c :: cs
  | 0 :: r :: rs, c :: cs => modAtInside f (r :: rs) c :: cs
  | (Nat.succ i) :: p, c :: cs => c :: modAtList f (i :: p) cs

/-- Descent of modAtList into one node. -/
def modAtInside (f : Node → Node) (p : List Nat) : Node → Node
  | ⟨nm, nt, x, y, w, h, vis, pid, cid, chars, lt, ch⟩ =>
    ⟨nm, nt, x, y, w, h, vis, pid, cid, chars, lt, modAtList f p ch⟩

end

/-- Mutation fillInstanceData performs on one located target sublayer for one
present record value: set visibility to the coerced boolean unconditionally;
if hidden, stop; otherwise, on TEXT targets whose value is not a native
boolean, write the stringified value through the list-style parser.  The
font preloading await of the source has no tree effect and is dropped. -/
def applyMappingValue (value : Value) (t : Node) : Node :=
  let isVisible := parseBoolean value
  let t1 := { t with visible := isVisible }
  if !isVisible then t1
  else if t1.ntype = .TEXT then
    match value with
    | .bool _ => t1
    | _ => parseAndApplyListStyle t1 (valueToString value)
  else t1

/-- One iteration of the fillInstanceData loop: locate the target sublayer by
name (skip the rule when absent), read the record value (skip when undefined
or null), then mutate the located node in place.  The source finds the node
reference first and tests the value second; with no target or no value no
mutation happens either way, so checking the value at the mutation site is
equivalent. -/
def fillStep (record : RecordT) (inst : Node) (m : FieldMapping) : Node :=
  match findPathInside m.layerName inst with
  | none => inst
  | some p =>
    match presentValue record m.dataField with
    | none => inst
    | some v =>
      match inst with
      | ⟨nm, nt, x, y, w, h, vis, pid, cid, chars, lt, ch⟩ =>
        ⟨nm, nt, x, y, w, h, vis, pid, cid, chars, lt, modAtList (applyMappingValue v) p ch⟩

/-- fillInstanceData of the source: fold the mapping rules in list order over
the instance. -/
def fillInstanceData (inst : Node) (record : RecordT) (mappings : List FieldMapping) : Node :=
  mappings.foldl (fillStep record) inst

/-- updateInstance of the source: a bare return when the node has no children
mixin, otherwise fillInstanceData. -/
def updateInstance (node : Node) (record : RecordT) (mappings : List FieldMapping) : Node :=
  if hasChildren node.ntype then fillInstanceData node record mappings else node

/-- Index path into the current page. -/
abbrev NodePath := List Nat

/-- The existing-instance index: notionId to the node paths bearing it, in
the insertion-ordered association form of a JS Map. -/
abbrev ExistingMap := List (String × List NodePath)

/-- JS Map.set(k, get(k) or [] push p): append the path to the entry of the
key, keeping the position of an existing key and adding a new key at the
end. -/
def mapAppend (m : ExistingMap) (k : String) (p : NodePath) : ExistingMap :=
  match m with
  | [] => [(k, [p])]
  | (k₁, ps) :: rest =>
    if k₁ = k then (k₁, ps ++ [p]) :: rest else (k₁, ps) :: mapAppend rest k p

mutual

/-- Tag stops of the buildExistingMap walk over one node, in visit order:
the node itself when its notionId tag is set, then its children when it has
them. -/
def collectTags (path : NodePath) (n : Node) : List (String × NodePath) :=
  match n with
  | ⟨_, nt, _, _, _, _, _, pid, _, _, _, ch⟩ =>
    (if pid ≠ "" then [(pid, path)] else []) ++
      (if hasChildren nt then collectTagsList path 0 ch else [])

/-- Tag stops of the walk over a child list, threading the child index. -/
def collectTagsList (path : NodePath) (i : Nat) : List Node → List (String × NodePath)
  | [] => []
  | c :: cs => collectTags (path ++ [i]) c ++ collectTagsList path (i + 1) cs

end

/-- buildExistingMap of the source: one full walk over the page children,
performing one Map insertion per tagged node in traversal order.  The walk
is phrased as the preorder tag enumeration followed by the fold of the
insertions it performs, which applies the same mapAppend calls in the same
order as the recursive walk of the source. -/
def buildExistingMap (page : List Node) : ExistingMap :=
  (collectTagsList [] 0 page).foldl (fun m e => mapAppend m e.1 e.2) []

mutual

/-- Paths of the nodes bearing a given nonempty tag, in the traversal order
of buildExistingMap; the specification view of one entry of the index. -/
def taggedPathsNode (k : String) (path : NodePath) (n : Node) : List NodePath :=
  match n with
  | ⟨_, nt, _, _, _, _, _, pid, _, _, _, ch⟩ =>
    (if pid ≠ "" ∧ pid = k then [path] else []) ++
      (if hasChildren nt then taggedPathsList k path 0 ch else [])

/-- List form of taggedPathsNode. -/
def taggedPathsList (k : String) (path : NodePath) (i : Nat) : List Node → List NodePath
  | [] => []
  | c :: cs => taggedPathsNode k (path ++ [i]) c ++ taggedPathsList k path (i + 1) cs

end

/-- Tagged paths over the whole page. -/
def taggedPaths (page : List Node) (k : String) : List NodePath :=
  taggedPathsList k [] 0 page

/-- getNextAvailableY of the source: running maximum of y + height over the
page children starting from zero, plus a two-gap margin when positive. -/
def getNextAvailableY (page : List Node) : Int :=
  let maxY := page.foldl (fun acc child => if child.y + child.height > acc then child.y + child.height else acc) 0
  if maxY > 0 then maxY + CARD_GAP * 2 else 0

/-- Mutable state of the sync-mapped-data loop. -/
structure SyncState where
  page : List Node
  newIndex : Nat
  updatedCount : Nat
  createdCount : Nat

/-- Update of one existing node located by a stored path: the pure counterpart
of updateInstance(existingNode, ...) through the map reference. -/
def updateInstanceAt (record : RecordT) (mappings : List FieldMapping) (page : List Node) (p : NodePath) : List Node :=
  modAtList (fun n => updateInstance n record mappings) p page

/-- Body of the sync-mapped-data for-loop for the record at input position i:
compute the key, look it up in the index; on a hit update every node of the
entry counting one update each; on a miss clone the template (createInstance
for a COMPONENT template and clone otherwise both copy the subtree here),
append it to the page, place it on the 4-column grid, tag it, and fill it. -/
def processRecord (templateNode : Node) (mappings : List FieldMapping) (idField componentId : String)
    (existingMap : ExistingMap) (startY cardWidth cardHeight : Int) (i : Nat) (record : RecordT)
    (st : SyncState) : SyncState :=
  let recordId := recordKey record idField i
  match List.lookup recordId existingMap with
  | some (p :: ps) =>
    (p :: ps).foldl
      (fun s pth =>
        { s with
          page := updateInstanceAt record mappings s.page pth,
          updatedCount := s.updatedCount + 1 })
      st
  | _ =>
    let col := st.newIndex % CARDS_PER_ROW
    let row := st.newIndex / CARDS_PER_ROW
    let x := (col : Int) * (cardWidth + CARD_GAP)
    let y := startY + (row : Int) * (cardHeight + CARD_GAP)
    let inst0 := { templateNode with x := x, y := y, pluginId := recordId, componentTag := componentId }
    let inst := fillInstanceData inst0 record mappings
    { st with
      page := st.page ++ [inst],
      newIndex := st.newIndex + 1,
      createdCount := st.createdCount + 1 }

/-- The sync-mapped-data for-loop over the record batch. -/
def syncLoop (templateNode : Node) (mappings : List FieldMapping) (idField componentId : String)
    (existingMap : ExistingMap) (startY cardWidth cardHeight : Int) :
    Nat → List RecordT → SyncState → SyncState
  | _, [], st => st
  | i, r :: rs, st =>
    syncLoop templateNode mappings idField componentId existingMap startY cardWidth cardHeight
      (i + 1) rs
      (processRecord templateNode mappings idField componentId existingMap startY cardWidth cardHeight i r st)

/-- Result of one sync-mapped-data request: either an error message with the
untouched page, or the final page together with the final value of the
existingMap binding and the reported counts. -/
inductive SyncResult where
  | error (message : String) (page : List Node)
  | done (page : List Node) (existingMap : ExistingMap) (createdCount updatedCount : Nat)

/-- Whether a result is the error report. -/
def SyncResult.isError : SyncResult → Bool
  | .error _ _ => true
  | .done _ _ _ _ => false

/-- Page carried by a result. -/
def SyncResult.pageOf : SyncResult → List Node
  | .error _ pg => pg
  | .done pg _ _ _ => pg

/-- Final index carried by a done result, empty for an error. -/
def SyncResult.mapOf : SyncResult → ExistingMap
  | .error _ _ => []
  | .done _ m _ _ => m

/-- Reported counts (created, updated); none when the pass never ran. -/
def SyncResult.countsOf : SyncResult → Option (Nat × Nat)
  | .error _ _ => none
  | .done _ _ c u => some (c, u)

/-- The sync-mapped-data handler.  The data and mappings arguments are Option
to cover absent message fields; templateNode is the oracle answer of
figma.getNodeByIdAsync(templateId || componentId).  Validation order follows
the source: data first, then mappings, then template resolution; cardWidth
and cardHeight read the template geometry (every scene node has it, so the
width-in-node guard of the source is always taken). -/
def syncMappedData (page : List Node) (templateNode : Option Node)
    (data : Option (List RecordT)) (mappings : Option (List FieldMapping))
    (idField componentId : String) : SyncResult :=
  match data with
  | none => .error "no-valid-data" page
  | some [] => .error "no-valid-data" page
  | some (r :: rs) =>
    match mappings with
    | none => .error "no-mappings" page
    | some [] => .error "no-mappings" page
    | some (m :: ms) =>
      match templateNode with
      | none => .error "template-not-found" page
      | some templ =>
        let existingMap := buildExistingMap page
        let startY := getNextAvailableY page
        let final :=
          syncLoop templ (m :: ms) idField componentId existingMap startY templ.width templ.height
            0 (r :: rs) ⟨page, 0, 0, 0⟩
        .done final.page existingMap final.createdCount final.updatedCount

/-- Skeleton of a node: every field except the three the Field Applier can
write (visible, characters, listType).  Geometry, tags, names, types and the
tree shape live here, so a skeleton-preserving pass moves and reparents
nothing and rewrites no tag. -/
structure Skel where
  name : String
  ntype : NType
  x : Int
  y : Int
  width : Int
  height : Int
  pluginId : String
  componentTag : String
  children : List Skel

mutual

/-- Skeleton projection of one node. -/
def skeleton : Node → Skel
  | ⟨nm, nt, x, y, w, h, _, pid, cid, _, _, ch⟩ => ⟨nm, nt, x, y, w, h, pid, cid, skeletonList ch⟩

/-- Skeleton projection of a forest. -/
def skeletonList : List Node → List Skel
  | [] => []
  | n :: ns => skeleton n :: skeletonList ns

end

/-- The three node fields the Field Applier can write, read off one node. -/
def scalarsOf (n : Node) : Bool × String × ListType :=
  (n.visible, n.characters, n.listType)

/-- Writable fields of the node at a path. -/
def scalarsAt (ns : List Node) (p : NodePath) : Option (Bool × String × ListType) :=
  (subAtList p ns).map scalarsOf

/-- Maximum of y + height over a nonempty run of top-level children, the
quantity named by the specification for the insertion origin. -/
def maxBottomOver (c : Node) (cs : List Node) : Int :=
  cs.foldl (fun acc child => max acc (child.y + child.height)) (c.y + c.height)

/-- Open-rectangle overlap of two placed nodes; touching edges do not count. -/
def rectOverlap (a b : Node) : Prop :=
  a.x < b.x + b.width ∧ b.x < a.x + a.width ∧ a.y < b.y + b.height ∧ b.y < a.y + a.height

instance (a b : Node) : Decidable (rectOverlap a b) := by
  unfold rectOverlap
  infer_instance

/-- Grid x coordinate the insert branch assigns to the idx-th created
element. -/
def gridX (cardWidth : Int) (idx : Nat) : Int :=
  ((idx % CARDS_PER_ROW : Nat) : Int) * (cardWidth + CARD_GAP)

/-- Grid y coordinate the insert branch assigns to the idx-th created
element. -/
def gridY (startY cardHeight : Int) (idx : Nat) : Int :=
  startY + ((idx / CARDS_PER_ROW : Nat) : Int) * (cardHeight + CARD_GAP)

/-- Number of records of a batch whose key misses the index, counted from
input position i onward; each such record takes the insert branch once. -/
def missCount (existingMap : ExistingMap) (idField : String) : Nat → List RecordT → Nat
  | _, [] => 0
  | i, r :: rs =>
    (match List.lookup (recordKey r idField i) existingMap with
      | some (_ :: _) => 0
      | _ => 1) + missCount existingMap idField (i + 1) rs

/-- Total number of index entries hit by a batch, counted from input position
i onward; each hit record contributes one update per element of its entry. -/
def hitTotal (existingMap : ExistingMap) (idField : String) : Nat → List RecordT → Nat
  | _, [] => 0
  | i, r :: rs =>
    (match List.lookup (recordKey r idField i) existingMap with
      | some (p :: ps) => (p :: ps).length
      | _ => 0) + hitTotal existingMap idField (i + 1) rs

/-- The clone the insert branch makes for the record at input position i at
insertion counter idx, after placement and tagging but before filling. -/
def clonedNode (templateNode : Node) (idField componentId : String)
    (startY cardWidth cardHeight : Int) (i idx : Nat) (record : RecordT) : Node :=
  { templateNode with
    x := gridX cardWidth idx,
    y := gridY startY cardHeight idx,
    pluginId := recordKey record idField i,
    componentTag := componentId }

/-- The node the insert branch appends for the record at input position i
when the running insertion counter is idx: the placed clone after filling. -/
def insertedNode (templateNode : Node) (mappings : List FieldMapping) (idField componentId : String)
    (startY cardWidth cardHeight : Int) (i idx : Nat) (record : RecordT) : Node :=
  fillInstanceData
    (clonedNode templateNode idField componentId startY cardWidth cardHeight i idx record)
    record mappings

/-- The run of nodes an all-miss batch appends, one per record. -/
def insertedList (templateNode : Node) (mappings : List FieldMapping) (idField componentId : String)
    (startY cardWidth cardHeight : Int) : Nat → Nat → List RecordT → List Node
  | _, _, [] => []
  | i, idx, r :: rs =>
    insertedNode templateNode mappings idField componentId startY cardWidth cardHeight i idx r ::
      insertedList templateNode mappings idField componentId startY cardWidth cardHeight (i + 1) (idx + 1) rs

/-- Concrete text node used by witnesses and counterexamples. -/
def sampleText : Node :=
  ⟨"title#", .TEXT, 0, 0, 10, 10, true, "", "", "old", .NONE, []⟩

/-- Concrete childless template frame used by witnesses and counterexamples. -/
def sampleFrame : Node :=
  ⟨"card", .FRAME, 0, 0, 100, 50, true, "", "", "", .NONE, []⟩

/-- Concrete template frame with a mappable text child, used by witnesses. -/
def sampleCard : Node :=
  ⟨"card", .FRAME, 0, 0, 100, 50, true, "", "", "", .NONE, [sampleText]⟩

/-- Concrete mapping rule used by witnesses and counterexamples. -/
def sampleMapping : FieldMapping :=
  ⟨"title#", "f", .text⟩

/-- Concrete pre-existing tagged card used by witnesses. -/
def sampleTagged : Node :=
  ⟨"card", .FRAME, 5, 6, 100, 50, true, "a", "", "", .NONE, []⟩

/-- Boolean-coercion table in the words of the specification: native boolean
passes through; numeric zero is false, nonzero true; the string is matched
case-insensitively against the two word lists; any other nonempty string is
true.  Stated for comparison with parseBoolean, which the source defines. -/
def claimBooleanCoercion : Value → Bool
  | .bool b => b
  | .num n => n ≠ 0
  | .str s =>
    if jsToLower s ∈ ["true", "yes", "1", "checked", "ok"] then true
    else if jsToLower s ∈ ["false", "no", "0", "unchecked", "", "null"] then false
    else s ≠ ""
  | .null => false

/-- Amended boolean-coercion table: identical to claimBooleanCoercion except
that the word-list match and the emptiness test read the trimmed, lowercased
form of the string, which is what the source compares. -/
def claimBooleanCoercionTrimmed : Value → Bool
  | .bool b => b
  | .num n => n ≠ 0
  | .str s =>
    let t := jsTrim (jsToLower s)
    if t ∈ ["true", "yes", "1", "checked", "ok"] then true
    else if t ∈ ["false", "no", "0", "unchecked", "", "null"] then false
    else t ≠ ""
  | .null => false

/-- Whether a record value is a native boolean (those are never written as
text by the Field Applier). -/
def isBoolValue : Value → Bool
  | .bool _ => true
  | _ => false

/-- The characters and list style parseAndApplyListStyle computes from a raw
value, separated from the node it is written to. -/
def parseScalars (rawValue : String) : String × ListType :=
  let lines := splitLines rawValue
  if testNumbered (lines.headD "") then
    (String.intercalate "\n" (lines.map replaceNumbering), .ORDERED)
  else (rawValue, .NONE)

/-- Action of one Field-Applier target mutation on the three writable scalar
fields, given the (immutable) node type of the target. -/
def applyScalar (v : Value) (nt : NType) (s : Bool × String × ListType) :
    Bool × String × ListType :=
  let isVisible := parseBoolean v
  if !isVisible then (isVisible, s.2.1, s.2.2)
  else if nt = .TEXT then
    match v with
    | .bool _ => (isVisible, s.2.1, s.2.2)
    | _ => (isVisible, (parseScalars (valueToString v)).1, (parseScalars (valueToString v)).2)
  else (isVisible, s.2.1, s.2.2)

/-- Sequential action of a run of Field-Applier values on one scalar triple. -/
def applyScalarChain (nt : NType) (s : Bool × String × ListType) (vs : List Value) :
    Bool × String × ListType :=
  vs.foldl (fun acc v => applyScalar v nt acc) s

/-- One Field-Applier mutation, recorded as the page path of its target and
the record value driving it. -/
structure TagWrite where
  path : List Nat
  value : Value
deriving DecidableEq, Repr

/-- Replay of one recorded mutation on the page. -/
def applyTagWrite (pg : List Node) (w : TagWrite) : List Node :=
  modAtList (applyMappingValue w.value) w.path pg

/-- Replay of a run of recorded mutations, in order. -/
def applyTagWrites (pg : List Node) (ws : List TagWrite) : List Node :=
  ws.foldl applyTagWrite pg

/-- Rebasing of a recorded mutation under a parent path. -/
def liftWrite (p : List Nat) (w : TagWrite) : TagWrite :=
  ⟨p ++ w.path, w.value⟩

/-- The mutations fillInstanceData performs on one instance, as recorded
writes relative to its child list: one per rule whose target exists and
whose record value is present. -/
def nodeWrites (n : Node) (record : RecordT) (mappings : List FieldMapping) : List TagWrite :=
  mappings.filterMap (fun m =>
    match findPathInside m.layerName n, presentValue record m.dataField with
    | some p, some v => some ⟨p, v⟩
    | _, _ => none)

/-- The mutations updateInstance performs on the element at one page path,
as recorded writes on the page: nothing when the path is dangling or the
element has no children mixin. -/
def pathWrites (pg : List Node) (p : NodePath) (record : RecordT)
    (mappings : List FieldMapping) : List TagWrite :=
  match subAtList p pg with
  | some n =>
    if hasChildren n.ntype then (nodeWrites n record mappings).map (liftWrite p) else []
  | none => []

/-- The tagged clones one pass appends, per missed record in input order. -/
def passClones (pg : List Node) (templateNode : Node) (idField componentId : String)
    (startY cardWidth cardHeight : Int) : Nat → Nat → List RecordT → List Node
  | _, _, [] => []
  | i, idx, r :: rs =>
    match List.lookup (recordKey r idField i) (buildExistingMap pg) with
    | some (_ :: _) =>
      passClones pg templateNode idField componentId startY cardWidth cardHeight (i + 1) idx rs
    | _ =>
      clonedNode templateNode idField componentId startY cardWidth cardHeight i idx r ::
        passClones pg templateNode idField componentId startY cardWidth cardHeight
          (i + 1) (idx + 1) rs

/-- The full ordered run of Field-Applier mutations of one pass over the
page pg: per hit record the updates of every element of its index entry, per
missed record the fill of its fresh clone, rebased at the page position
baseLen + idx where that clone is appended. -/
def passWrites (pg : List Node) (templateNode : Node) (mappings : List FieldMapping)
    (idField : String) (baseLen : Nat) : Nat → Nat → List RecordT → List TagWrite
  | _, _, [] => []
  | i, idx, r :: rs =>
    match List.lookup (recordKey r idField i) (buildExistingMap pg) with
    | some (p :: ps) =>
      (p :: ps).flatMap (fun p₁ => pathWrites pg p₁ r mappings) ++
        passWrites pg templateNode mappings idField baseLen (i + 1) idx rs
    | _ =>
      (nodeWrites templateNode r mappings).map (liftWrite [baseLen + idx]) ++
        passWrites pg templateNode mappings idField baseLen (i + 1) (idx + 1) rs

/-- Total number of elements bearing the keys of a batch, one index entry per
record in input order. -/
def tagCountSum (pg : List Node) (idField : String) : Nat → List RecordT → Nat
  | _, [] => 0
  | i, r :: rs =>
    (taggedPaths pg (recordKey r idField i)).length + tagCountSum pg idField (i + 1) rs

/-- Keys of a batch in input order, from position i. -/
def keyList (idField : String) : Nat → List RecordT → List String
  | _, [] => []
  | i, r :: rs => recordKey r idField i :: keyList idField (i + 1) rs

mutual

/-- Whether a node and its whole reachable subtree carry no identifier tag
(reachable in the sense of the buildExistingMap walk). -/
def untaggedNode : Node → Bool
  | ⟨_, nt, _, _, _, _, _, pid, _, _, _, ch⟩ =>
    decide (pid = "") && (if hasChildren nt then untaggedList ch else true)

/-- List form of untaggedNode. -/
def untaggedList : List Node → Bool
  | [] => true
  | c :: cs => untaggedNode c && untaggedList cs

end

/-- Values of the recorded mutations that target one given page path, in
order. -/
def writeValuesAt (p : List Nat) (ws : List TagWrite) : List Value :=
  (ws.filter (fun w => w.path == p)).map TagWrite.value

/-- Visibility after a run of mutations on one node: every mutation
overwrites it with the coerced boolean, so the last value wins. -/
def chainVis (b : Bool) (vs : List Value) : Bool :=
  vs.foldl (fun _ v => parseBoolean v) b

/-- Whether one mutation value rewrites the textual content of a target of
the given node type: the value coerces visible, the target is TEXT, and the
value is not a native boolean. -/
def isContentWrite (nt : NType) (v : Value) : Bool :=
  parseBoolean v && decide (nt = NType.TEXT) && !(isBoolValue v)

/-- Characters and list style after a run of mutations on one node: each
content-writing value overwrites both with a function of the value alone,
every other value leaves them untouched. -/
def chainContent (nt : NType) (cl : String × ListType) (vs : List Value) : String × ListType :=
  vs.foldl (fun acc v => if isContentWrite nt v then parseScalars (valueToString v) else acc) cl

/-- Node type together with the writable scalars: everything one Field-Applier
mutation can read or write on its target. -/
def nodeView (n : Node) : NType × Bool × String × ListType :=
  (n.ntype, scalarsOf n)

/-- The head of an index path is below the given bound (vacuous for the empty
path, which addresses nothing). -/
def headLt : List Nat → Nat → Prop
  | [], _ => True
  | i :: _, n => i < n

/-- Missed keys of a pass in input order, each with the page path of the
clone the insert branch appends for it. -/
def missKeyPaths (pg : List Node) (idField : String) (L : Nat) :
    Nat → Nat → List RecordT → List (String × NodePath)
  | _, _, [] => []
  | i, idx, r :: rs =>
    match List.lookup (recordKey r idField i) (buildExistingMap pg) with
    | some (_ :: _) => missKeyPaths pg idField L (i + 1) idx rs
    | _ => (recordKey r idField i, [L + idx]) :: missKeyPaths pg idField L (i + 1) (idx + 1) rs

/-! ### Basic lemmas -/

theorem string_length_pos_iff_ne_empty (t : String) : 0 < t.length ↔ t ≠ "" := by
  cases t with
  | mk l =>
    cases l with
    | nil => decide
    | cons c cs =>
      constructor
      · intro _ he
        simp [String.ext_iff] at he
      · intro _
        simp [String.length]

theorem parseBoolean_eq_trimmed_table (v : Value) :
    parseBoolean v = claimBooleanCoercionTrimmed v := by
  cases v with
  | bool b => rfl
  | num n => rfl
  | null => rfl
  | str s =>
    simp only [parseBoolean, claimBooleanCoercionTrimmed, List.mem_cons, List.not_mem_nil, or_false]
    split_ifs with h1 h2
    · rfl
    · rfl
    · rw [decide_eq_decide]
      rw [string_length_pos_iff_ne_empty]

/-! ### Claim theorems: boolean coercion (C7) -/

/-- Counterexample to claim C7 as stated: the string " false " is nonempty
and matches no table word case-insensitively, so the claimed table coerces it
to true, but parseBoolean trims it first and returns false. -/
theorem parseBoolean_untrimmed_mismatch :
    parseBoolean (.str " false ") = false ∧ claimBooleanCoercion (.str " false ") = true := by
  decide

/-- Claim C7, amended: the coercion maps native booleans to themselves and
numbers to (value not zero); strings are matched against the two word lists
after lowercasing and whitespace-trimming, and any string that is nonempty
after trimming and matches neither list coerces to true.  The concrete rows
of the specification table all hold. -/
theorem parseBoolean_coercion_table :
    (∀ v : Value, parseBoolean v = claimBooleanCoercionTrimmed v) ∧
    parseBoolean (.bool true) = true ∧ parseBoolean (.num 1) = true ∧
    parseBoolean (.str "yes") = true ∧ parseBoolean (.str "Checked") = true ∧
    parseBoolean (.bool false) = false ∧ parseBoolean (.num 0) = false ∧
    parseBoolean (.str "no") = false ∧ parseBoolean (.str "") = false ∧
    parseBoolean (.str "unchecked") = false ∧ parseBoolean (.str "Q&A") = true := by
  refine ⟨parseBoolean_eq_trimmed_table, ?_⟩
  repeat constructor <;> decide

/-! ### Counting lemmas for the sync loop -/

theorem updateFold_state (record : RecordT) (mappings : List FieldMapping) (ps : List NodePath) :
    ∀ st : SyncState,
      ps.foldl
        (fun s pth =>
          { s with
            page := updateInstanceAt record mappings s.page pth,
            updatedCount := s.updatedCount + 1 })
        st =
      { st with
        page := ps.foldl (updateInstanceAt record mappings) st.page,
        updatedCount := st.updatedCount + ps.length } := by
  induction ps with
  | nil => intro st; rfl
  | cons p ps ih =>
    intro st
    simp only [List.foldl_cons, ih, List.length_cons]
    congr 1
    omega

theorem processRecord_hit (templateNode : Node) (mappings : List FieldMapping)
    (idField componentId : String) (existingMap : ExistingMap)
    (startY cardWidth cardHeight : Int) (i : Nat) (r : RecordT) (st : SyncState)
    (p : NodePath) (ps : List NodePath)
    (hl : List.lookup (recordKey r idField i) existingMap = some (p :: ps)) :
    processRecord templateNode mappings idField componentId existingMap startY cardWidth cardHeight
        i r st =
      { st with
        page := (p :: ps).foldl (updateInstanceAt r mappings) st.page,
        updatedCount := st.updatedCount + (p :: ps).length } := by
  unfold processRecord
  simp only [hl]
  exact updateFold_state r mappings (p :: ps) st

theorem processRecord_miss (templateNode : Node) (mappings : List FieldMapping)
    (idField componentId : String) (existingMap : ExistingMap)
    (startY cardWidth cardHeight : Int) (i : Nat) (r : RecordT) (st : SyncState)
    (hl : List.lookup (recordKey r idField i) existingMap = none ∨
      List.lookup (recordKey r idField i) existingMap = some []) :
    processRecord templateNode mappings idField componentId existingMap startY cardWidth cardHeight
        i r st =
      { st with
        page := st.page ++
          [insertedNode templateNode mappings idField componentId startY cardWidth cardHeight
            i st.newIndex r],
        newIndex := st.newIndex + 1,
        createdCount := st.createdCount + 1 } := by
  unfold processRecord
  rcases hl with hl | hl <;> simp only [hl] <;> rfl

theorem syncLoop_counts (templateNode : Node) (mappings : List FieldMapping)
    (idField componentId : String) (existingMap : ExistingMap) (startY cardWidth cardHeight : Int)
    (rs : List RecordT) :
    ∀ (i : Nat) (st : SyncState),
      ((syncLoop templateNode mappings idField componentId existingMap startY cardWidth cardHeight
            i rs st).createdCount = st.createdCount + missCount existingMap idField i rs) ∧
      ((syncLoop templateNode mappings idField componentId existingMap startY cardWidth cardHeight
            i rs st).updatedCount = st.updatedCount + hitTotal existingMap idField i rs) ∧
      ((syncLoop templateNode mappings idField componentId existingMap startY cardWidth cardHeight
            i rs st).newIndex = st.newIndex + missCount existingMap idField i rs) := by
  induction rs with
  | nil => intro i st; simp [syncLoop, missCount, hitTotal]
  | cons r rs ih =>
    intro i st
    obtain ⟨ihc, ihu, ihn⟩ :=
      ih (i + 1)
        (processRecord templateNode mappings idField componentId existingMap startY cardWidth
          cardHeight i r st)
    simp only [syncLoop]
    rw [missCount, hitTotal]
    cases hl : List.lookup (recordKey r idField i) existingMap with
    | none =>
      rw [processRecord_miss templateNode mappings idField componentId existingMap startY cardWidth
        cardHeight i r st (Or.inl hl)] at ihc ihu ihn ⊢
      dsimp only at ihc ihu ihn
      simp only [hl]
      refine ⟨?_, ?_, ?_⟩ <;> omega
    | some l =>
      cases l with
      | nil =>
        rw [processRecord_miss templateNode mappings idField componentId existingMap startY
          cardWidth cardHeight i r st (Or.inr hl)] at ihc ihu ihn ⊢
        dsimp only at ihc ihu ihn
        simp only [hl]
        refine ⟨?_, ?_, ?_⟩ <;> omega
      | cons p ps =>
        rw [processRecord_hit templateNode mappings idField componentId existingMap startY
          cardWidth cardHeight i r st p ps hl] at ihc ihu ihn ⊢
        dsimp only at ihc ihu ihn
        simp only [hl]
        refine ⟨?_, ?_, ?_⟩ <;> omega

/-! ### Claim theorems: identifier-key fallback (C4) -/

/-- Counterexample to claim C4 as stated: a record whose identifier field is
present and holds the number 0 is neither absent nor empty, so the claimed
key is the string form "0"; the source falls back to the positional
placeholder for every JS-falsy value, so the key is "row-0". -/
theorem recordKey_falsy_zero_mismatch :
    List.lookup "id" [("id", Value.num 0)] = some (Value.num 0) ∧
    valueToString (Value.num 0) = "0" ∧
    recordKey [("id", Value.num 0)] "id" 0 = "row-0" ∧
    recordKey [("id", Value.num 0)] "id" 0 ≠ valueToString (Value.num 0) := by
  decide

/-- Claim C4, amended: the processing key equals the string form of the
identifier-field value whenever that value is present and JS-truthy, and
falls back to "row-" + i exactly when the value is absent or JS-falsy (null,
false, numeric zero, or the empty string); every record is processed exactly
once, the misses each creating one element and the hits each updating one
full index entry. -/
theorem recordKey_fallback_exactly_falsy :
    (∀ (record : RecordT) (idField : String) (i : Nat) (v : Value),
        List.lookup idField record = some v → jsFalsy v = false →
        recordKey record idField i = valueToString v) ∧
    (∀ (record : RecordT) (idField : String) (i : Nat),
        (List.lookup idField record = none ∨
          ∃ v, List.lookup idField record = some v ∧ jsFalsy v = true) →
        recordKey record idField i = "row-" ++ toString i) ∧
    (∀ (templateNode : Node) (mappings : List FieldMapping) (idField componentId : String)
        (existingMap : ExistingMap) (startY cardWidth cardHeight : Int) (i : Nat)
        (rs : List RecordT) (st : SyncState),
        ((syncLoop templateNode mappings idField componentId existingMap startY cardWidth
              cardHeight i rs st).createdCount
            = st.createdCount + missCount existingMap idField i rs) ∧
        ((syncLoop templateNode mappings idField componentId existingMap startY cardWidth
              cardHeight i rs st).updatedCount
            = st.updatedCount + hitTotal existingMap idField i rs)) := by
  refine ⟨?_, ?_, ?_⟩
  · intro record idField i v hv hf
    simp [recordKey, hv, hf]
  · intro record idField i h
    rcases h with h | ⟨v, hv, hf⟩
    · simp [recordKey, h]
    · simp [recordKey, hv, hf]
  · intro templateNode mappings idField componentId existingMap startY cardWidth cardHeight i rs st
    obtain ⟨hc, hu, _⟩ :=
      syncLoop_counts templateNode mappings idField componentId existingMap startY cardWidth
        cardHeight rs i st
    exact ⟨hc, hu⟩

/-- Witness for the amended C4 theorem at concrete inputs. -/
theorem recordKey_fallback_witness :
    recordKey [("id", Value.str "x")] "id" 0 = valueToString (Value.str "x") ∧
    recordKey ([] : RecordT) "id" 5 = "row-" ++ toString 5 :=
  ⟨recordKey_fallback_exactly_falsy.1 [("id", Value.str "x")] "id" 0 (Value.str "x") (by decide)
      (by decide),
    recordKey_fallback_exactly_falsy.2.1 [] "id" 5 (Or.inl (by decide))⟩

/-! ### Claim theorems: ordered-list detection (C9) -/

/-- Claim C9, confirmed: a text value whose first line starts with the
numeric-dot-space pattern is stored with the pattern stripped from every
line and the range styled as an ordered list, and any other value is stored
as-is with the range unstyled; in particular the two rows of the
specification examples hold for every text node. -/
theorem parseAndApplyListStyle_spec :
    (∀ t : Node,
      parseAndApplyListStyle t "1. A\n2. B" =
        { t with characters := "A\nB", listType := .ORDERED }) ∧
    (∀ t : Node,
      parseAndApplyListStyle t "A\nB" = { t with characters := "A\nB", listType := .NONE }) ∧
    (∀ (t : Node) (raw : String), testNumbered ((splitLines raw).headD "") = true →
      parseAndApplyListStyle t raw =
        { t with
          characters := String.intercalate "\n" ((splitLines raw).map replaceNumbering),
          listType := .ORDERED }) ∧
    (∀ (t : Node) (raw : String), testNumbered ((splitLines raw).headD "") = false →
      parseAndApplyListStyle t raw = { t with characters := raw, listType := .NONE }) := by
  refine ⟨fun t => rfl, fun t => rfl, ?_, ?_⟩
  · intro t raw h
    simp only [parseAndApplyListStyle, h]
    rfl
  · intro t raw h
    simp only [parseAndApplyListStyle, h]
    rfl

/-- Witness for the C9 theorem at a concrete node and value. -/
theorem parseAndApplyListStyle_spec_witness :
    parseAndApplyListStyle sampleText "3. C" =
      { sampleText with
        characters := String.intercalate "\n" ((splitLines "3. C").map replaceNumbering),
        listType := .ORDERED } :=
  parseAndApplyListStyle_spec.2.2.1 sampleText "3. C" (by decide)

/-! ### Claim theorems: input validation (C10) -/

/-- Counterexample to claim C10 as stated: with a nonempty record set, a
nonempty rule list and a resolvable template, a missing identifier field
(the record has no "id" key) does not abort the pass: the handler reports a
successful run with one creation instead of an immediate error. -/
theorem sync_missing_idField_runs :
    (syncMappedData [] (some sampleFrame) (some [[("name", Value.str "x")]])
        (some [sampleMapping]) "id" "cid").isError = false ∧
    (syncMappedData [] (some sampleFrame) (some [[("name", Value.str "x")]])
        (some [sampleMapping]) "id" "cid").countsOf = some (1, 0) := by
  decide

/-- Claim C10, amended: a missing or empty record set, a missing or empty
rule list, or a failed template resolution each abort the handler with an
error before the pass starts, leaving the page untouched and reporting no
counts; a missing identifier field or an unsupported template kind is not
validated and does not abort. -/
theorem syncMappedData_validation :
    (∀ (page : List Node) (templateNode : Option Node) (data : Option (List RecordT))
        (mappings : Option (List FieldMapping)) (idField componentId : String),
        data = none ∨ data = some [] →
        (syncMappedData page templateNode data mappings idField componentId).isError = true ∧
        (syncMappedData page templateNode data mappings idField componentId).pageOf = page) ∧
    (∀ (page : List Node) (templateNode : Option Node) (data : Option (List RecordT))
        (mappings : Option (List FieldMapping)) (idField componentId : String),
        mappings = none ∨ mappings = some [] →
        (syncMappedData page templateNode data mappings idField componentId).isError = true ∧
        (syncMappedData page templateNode data mappings idField componentId).pageOf = page) ∧
    (∀ (page : List Node) (templateNode : Option Node) (data : Option (List RecordT))
        (mappings : Option (List FieldMapping)) (idField componentId : String),
        templateNode = none →
        (syncMappedData page templateNode data mappings idField componentId).isError = true ∧
        (syncMappedData page templateNode data mappings idField componentId).pageOf = page) := by
  refine ⟨?_, ?_, ?_⟩
  · intro page tn data mappings idField cid h
    rcases h with h | h <;> subst h <;> exact ⟨rfl, rfl⟩
  · intro page tn data mappings idField cid h
    have step : ∀ d : Option (List RecordT), d = data →
        (syncMappedData page tn d mappings idField cid).isError = true ∧
        (syncMappedData page tn d mappings idField cid).pageOf = page := by
      intro d _
      rcases h with h | h <;> subst h <;>
        (cases d with
        | none => exact ⟨rfl, rfl⟩
        | some l =>
          cases l with
          | nil => exact ⟨rfl, rfl⟩
          | cons r rs => exact ⟨rfl, rfl⟩)
    exact step data rfl
  · intro page tn data mappings idField cid h
    subst h
    cases data with
    | none => exact ⟨rfl, rfl⟩
    | some l =>
      cases l with
      | nil => exact ⟨rfl, rfl⟩
      | cons r rs =>
        cases mappings with
        | none => exact ⟨rfl, rfl⟩
        | some ml =>
          cases ml with
          | nil => exact ⟨rfl, rfl⟩
          | cons m ms => exact ⟨rfl, rfl⟩

/-- Witness for the amended C10 theorem: a missing record set errors out with
the page untouched. -/
theorem syncMappedData_validation_witness :
    (syncMappedData [] (some sampleFrame) none (some [sampleMapping]) "id" "cid").isError = true ∧
    (syncMappedData [] (some sampleFrame) none (some [sampleMapping]) "id" "cid").pageOf = [] :=
  syncMappedData_validation.1 [] (some sampleFrame) none (some [sampleMapping]) "id" "cid"
    (Or.inl rfl)

/-! ### Claim theorems: identity-index mutation (C5) -/

/-- Counterexample to claim C5 as stated: after a pass over the empty page
that created one element tagged "a", the final value of the existingMap
binding is still the empty index built at pass start; no entry was appended
for the newly inserted element. -/
theorem index_no_append_on_insert :
    (syncMappedData [] (some sampleFrame) (some [[("id", Value.str "a")]])
        (some [sampleMapping]) "id" "cid").mapOf = [] ∧
    taggedPaths
        (syncMappedData [] (some sampleFrame) (some [[("id", Value.str "a")]])
          (some [sampleMapping]) "id" "cid").pageOf "a" = [[0]] := by
  decide

/-- Claim C5, amended: the identity index is entirely read-only during the
pass; the final value of the index binding equals the index built at pass
start, no entry is appended, removed or reordered, and consequently a second
record bearing the same fresh key inside one batch takes the insert branch
again instead of updating the element just created. -/
theorem index_read_only :
    (∀ (page : List Node) (templateNode : Option Node) (data : Option (List RecordT))
        (mappings : Option (List FieldMapping)) (idField componentId : String)
        (pg : List Node) (em : ExistingMap) (c u : Nat),
        syncMappedData page templateNode data mappings idField componentId = .done pg em c u →
        em = buildExistingMap page) ∧
    (∀ (page : List Node) (templ : Node) (m : FieldMapping) (ms : List FieldMapping)
        (idField componentId : String) (r₁ r₂ : RecordT),
        recordKey r₂ idField 1 = recordKey r₁ idField 0 →
        List.lookup (recordKey r₁ idField 0) (buildExistingMap page) = none →
        (syncMappedData page (some templ) (some [r₁, r₂]) (some (m :: ms)) idField
            componentId).countsOf = some (2, 0)) := by
  constructor
  · intro page tn data mappings idField cid pg em c u h
    cases data with
    | none => exact absurd h (by simp [syncMappedData])
    | some l =>
      cases l with
      | nil => exact absurd h (by simp [syncMappedData])
      | cons r rs =>
        cases mappings with
        | none => exact absurd h (by simp [syncMappedData])
        | some ml =>
          cases ml with
          | nil => exact absurd h (by simp [syncMappedData])
          | cons m ms =>
            cases tn with
            | none => exact absurd h (by simp [syncMappedData])
            | some templ =>
              simp only [syncMappedData, SyncResult.done.injEq] at h
              exact h.2.1.symm
  · intro page templ m ms idField cid r₁ r₂ hk hl
    have h2 : List.lookup (recordKey r₂ idField 1) (buildExistingMap page) = none := by
      rw [hk]
      exact hl
    simp only [syncMappedData, syncLoop]
    rw [processRecord_miss templ (m :: ms) idField cid (buildExistingMap page)
      (getNextAvailableY page) templ.width templ.height 0 r₁ ⟨page, 0, 0, 0⟩ (Or.inl hl)]
    rw [processRecord_miss templ (m :: ms) idField cid (buildExistingMap page)
      (getNextAvailableY page) templ.width templ.height 1 r₂ _ (Or.inl h2)]
    rfl

/-- Witness for the amended C5 theorem: the same fresh key twice in one batch
yields two creations and no update. -/
theorem index_read_only_witness :
    (syncMappedData [] (some sampleFrame)
        (some [[("id", Value.str "a")], [("id", Value.str "a")]])
        (some [sampleMapping]) "id" "cid").countsOf = some (2, 0) :=
  index_read_only.2 [] sampleFrame sampleMapping [] "id" "cid"
    [("id", Value.str "a")] [("id", Value.str "a")] (by decide) (by decide)

/-! ### Skeleton preservation: the Field Applier never moves, resizes,
reparents or retags anything -/

theorem skeleton_parseAndApplyListStyle (t : Node) (raw : String) :
    skeleton (parseAndApplyListStyle t raw) = skeleton t := by
  cases t
  unfold parseAndApplyListStyle
  dsimp only
  split_ifs <;> rfl

theorem skeleton_applyMappingValue (v : Value) (t : Node) :
    skeleton (applyMappingValue v t) = skeleton t := by
  cases t with
  | mk nm nt x y w h vis pid cid chars lt ch =>
    unfold applyMappingValue
    dsimp only
    split_ifs with h1 h2
    · rfl
    · cases v <;> first | rfl | (rw [skeleton_parseAndApplyListStyle]; rfl)
    · rfl

mutual

theorem skeletonList_modAtList (f : Node → Node) (hf : ∀ n, skeleton (f n) = skeleton n) :
    ∀ (p : List Nat) (ns : List Node), skeletonList (modAtList f p ns) = skeletonList ns
  | _, [] => by simp [modAtList]
  | [], c :: cs => by simp [modAtList]
  | [0], c :: cs => by simp [modAtList, skeletonList, hf]
  | 0 :: r :: rs, c :: cs => by
    simp [modAtList, skeletonList, skeleton_modAtInside f hf (r :: rs) c]
  | (Nat.succ i) :: p, c :: cs => by
    simp [modAtList, skeletonList, skeletonList_modAtList f hf (i :: p) cs]

theorem skeleton_modAtInside (f : Node → Node) (hf : ∀ n, skeleton (f n) = skeleton n) :
    ∀ (p : List Nat) (n : Node), skeleton (modAtInside f p n) = skeleton n
  | p, ⟨nm, nt, x, y, w, h, vis, pid, cid, chars, lt, ch⟩ => by
    simp [modAtInside, skeleton, skeletonList_modAtList f hf p ch]

end

theorem skeleton_fillStep (record : RecordT) (inst : Node) (m : FieldMapping) :
    skeleton (fillStep record inst m) = skeleton inst := by
  unfold fillStep
  cases findPathInside m.layerName inst with
  | none => rfl
  | some p =>
    cases presentValue record m.dataField with
    | none => rfl
    | some v =>
      cases inst with
      | mk nm nt x y w h vis pid cid chars lt ch =>
        simp [skeleton, skeletonList_modAtList (applyMappingValue v) (skeleton_applyMappingValue v) p ch]

theorem skeleton_fillInstanceData (record : RecordT) (mappings : List FieldMapping) :
    ∀ inst : Node, skeleton (fillInstanceData inst record mappings) = skeleton inst := by
  induction mappings with
  | nil => intro inst; rfl
  | cons m ms ih =>
    intro inst
    show skeleton (fillInstanceData (fillStep record inst m) record ms) = skeleton inst
    rw [ih, skeleton_fillStep]

theorem skeleton_updateInstance (record : RecordT) (mappings : List FieldMapping) (n : Node) :
    skeleton (updateInstance n record mappings) = skeleton n := by
  unfold updateInstance
  split_ifs
  · exact skeleton_fillInstanceData record mappings n
  · rfl

theorem skeletonList_updateInstanceAt (record : RecordT) (mappings : List FieldMapping)
    (page : List Node) (p : NodePath) :
    skeletonList (updateInstanceAt record mappings page p) = skeletonList page :=
  skeletonList_modAtList _ (skeleton_updateInstance record mappings) p page

theorem skeletonList_updateFold (record : RecordT) (mappings : List FieldMapping)
    (ps : List NodePath) :
    ∀ page : List Node,
      skeletonList (ps.foldl (updateInstanceAt record mappings) page) = skeletonList page := by
  induction ps with
  | nil => intro page; rfl
  | cons p ps ih =>
    intro page
    rw [List.foldl_cons, ih, skeletonList_updateInstanceAt]

theorem skeletonList_append (as bs : List Node) :
    skeletonList (as ++ bs) = skeletonList as ++ skeletonList bs := by
  induction as with
  | nil => rfl
  | cons a as ih => simp [skeletonList, ih]

/-- Over one whole sync loop the page only grows at the end: its skeleton is
the starting skeleton followed by the skeletons of the inserted elements. -/
theorem syncLoop_skeleton_extend (templateNode : Node) (mappings : List FieldMapping)
    (idField componentId : String) (existingMap : ExistingMap)
    (startY cardWidth cardHeight : Int) (rs : List RecordT) :
    ∀ (i : Nat) (st : SyncState),
      ∃ rest : List Skel,
        skeletonList (syncLoop templateNode mappings idField componentId existingMap startY
          cardWidth cardHeight i rs st).page = skeletonList st.page ++ rest := by
  induction rs with
  | nil => intro i st; exact ⟨[], by simp [syncLoop]⟩
  | cons r rs ih =>
    intro i st
    simp only [syncLoop]
    rcases hl : List.lookup (recordKey r idField i) existingMap with _ | l
    · obtain ⟨rest, hrest⟩ :=
        ih (i + 1)
          (processRecord templateNode mappings idField componentId existingMap startY cardWidth
            cardHeight i r st)
      rw [processRecord_miss templateNode mappings idField componentId existingMap startY
        cardWidth cardHeight i r st (Or.inl hl)] at hrest ⊢
      dsimp only at hrest
      rw [skeletonList_append, List.append_assoc] at hrest
      exact ⟨_, hrest⟩
    · cases l with
      | nil =>
        obtain ⟨rest, hrest⟩ :=
          ih (i + 1)
            (processRecord templateNode mappings idField componentId existingMap startY cardWidth
              cardHeight i r st)
        rw [processRecord_miss templateNode mappings idField componentId existingMap startY
          cardWidth cardHeight i r st (Or.inr hl)] at hrest ⊢
        dsimp only at hrest
        rw [skeletonList_append, List.append_assoc] at hrest
        exact ⟨_, hrest⟩
      | cons p ps =>
        obtain ⟨rest, hrest⟩ :=
          ih (i + 1)
            (processRecord templateNode mappings idField componentId existingMap startY cardWidth
              cardHeight i r st)
        rw [processRecord_hit templateNode mappings idField componentId existingMap startY
          cardWidth cardHeight i r st p ps hl] at hrest ⊢
        dsimp only at hrest
        rw [skeletonList_updateFold] at hrest
        exact ⟨rest, hrest⟩

mutual

theorem subAtList_skeleton_congr :
    ∀ (p : List Nat) (as bs : List Node), skeletonList as = skeletonList bs →
      Option.map skeleton (subAtList p as) = Option.map skeleton (subAtList p bs)
  | _, [], [], _ => by rfl
  | _, [], b :: bs, h => by simp [skeletonList] at h
  | _, a :: as, [], h => by simp [skeletonList] at h
  | [], a :: as, b :: bs, _ => by simp [subAtList]
  | [0], a :: as, b :: bs, h => by
    simp only [skeletonList, List.cons.injEq] at h
    simp [subAtList, h.1]
  | 0 :: r :: rs, a :: as, b :: bs, h => by
    simp only [skeletonList, List.cons.injEq] at h
    simp only [subAtList]
    exact subAtInside_skeleton_congr (r :: rs) a b h.1
  | (Nat.succ i) :: p, a :: as, b :: bs, h => by
    simp only [skeletonList, List.cons.injEq] at h
    simp only [subAtList]
    exact subAtList_skeleton_congr (i :: p) as bs h.2

theorem subAtInside_skeleton_congr :
    ∀ (p : List Nat) (a b : Node), skeleton a = skeleton b →
      Option.map skeleton (subAtInside p a) = Option.map skeleton (subAtInside p b)
  | p, ⟨nm, nt, x, y, w, h, vis, pid, cid, chars, lt, ch⟩,
      ⟨nm₁, nt₁, x₁, y₁, w₁, h₁, vis₁, pid₁, cid₁, chars₁, lt₁, ch₁⟩, he => by
    simp only [skeleton, Skel.mk.injEq] at he
    simp only [subAtInside]
    exact subAtList_skeleton_congr p ch ch₁ he.2.2.2.2.2.2.2.2

end

/-- Walking into an appended page: a path valid before the pass still reaches
a node with the same skeleton after the page was rewritten scalar-wise and
extended at the end. -/
theorem subAt_of_skeleton_extend :
    ∀ (as : List Node) (p : List Nat) (bs : List Node) (rest : List Skel),
      skeletonList bs = skeletonList as ++ rest →
      ∀ n : Node, subAtList p as = some n →
        ∃ n₁ : Node, subAtList p bs = some n₁ ∧ skeleton n₁ = skeleton n := by
  intro as
  induction as with
  | nil =>
    intro p bs rest hsk n hn
    exfalso
    cases p <;> simp [subAtList] at hn
  | cons a as ih =>
    intro p bs rest hsk n hn
    cases bs with
    | nil => simp [skeletonList] at hsk
    | cons b bs =>
      simp only [skeletonList, List.cons_append, List.cons.injEq] at hsk
      obtain ⟨hab, htail⟩ := hsk
      cases p with
      | nil => simp [subAtList] at hn
      | cons j q =>
        cases j with
        | zero =>
          cases q with
          | nil =>
            simp only [subAtList, Option.some.injEq] at hn
            subst hn
            exact ⟨b, rfl, hab⟩
          | cons r rs =>
            simp only [subAtList] at hn ⊢
            have := subAtInside_skeleton_congr (r :: rs) b a hab
            rw [hn] at this
            cases hb : subAtInside (r :: rs) b with
            | none => rw [hb] at this; simp at this
            | some n₁ =>
              rw [hb] at this
              simp only [Option.map] at this
              exact ⟨n₁, rfl, Option.some.inj this⟩
        | succ i =>
          simp only [subAtList] at hn ⊢
          exact ih (i :: q) bs rest htail n hn

/-- Equal skeletons pin down every field outside the writable scalars. -/
theorem skeleton_eq_fields {a b : Node} (h : skeleton a = skeleton b) :
    a.name = b.name ∧ a.ntype = b.ntype ∧ a.x = b.x ∧ a.y = b.y ∧ a.width = b.width ∧
    a.height = b.height ∧ a.pluginId = b.pluginId ∧ a.componentTag = b.componentTag := by
  cases a
  cases b
  simp only [skeleton, Skel.mk.injEq] at h
  exact ⟨h.1, h.2.1, h.2.2.1, h.2.2.2.1, h.2.2.2.2.1, h.2.2.2.2.2.1, h.2.2.2.2.2.2.1,
    h.2.2.2.2.2.2.2.1⟩

/-! ### The built index agrees with the tagged-path enumeration -/

theorem lookup_mapAppend_same (k : String) (p : NodePath) :
    ∀ m : ExistingMap, List.lookup k (mapAppend m k p) = some ((List.lookup k m).getD [] ++ [p]) := by
  intro m
  induction m with
  | nil => simp [mapAppend, List.lookup]
  | cons e rest ih =>
    obtain ⟨k₁, ps⟩ := e
    by_cases h : k₁ = k
    · subst h
      simp [mapAppend, List.lookup]
    · simp only [mapAppend, if_neg h, List.lookup]
      have hbeq : (k == k₁) = false := by
        simp [beq_eq_false_iff_ne]
        exact fun he => h he.symm
      simp [hbeq, ih]

theorem lookup_mapAppend_other (k : String) (p : NodePath) (k' : String) (h : k' ≠ k) :
    ∀ m : ExistingMap, List.lookup k' (mapAppend m k p) = List.lookup k' m := by
  intro m
  induction m with
  | nil =>
    simp only [mapAppend, List.lookup]
    have hbeq : (k' == k) = false := by simpa [beq_eq_false_iff_ne] using h
    simp [hbeq]
  | cons e rest ih =>
    obtain ⟨k₁, ps⟩ := e
    by_cases h1 : k₁ = k
    · subst h1
      have hbeq : (k' == k₁) = false := by simpa [beq_eq_false_iff_ne] using h
      simp [mapAppend, List.lookup, hbeq]
    · simp only [mapAppend, if_neg h1, List.lookup]
      cases hbeq : k' == k₁ with
      | true => rfl
      | false => exact ih

theorem lookup_mapFold (k : String) :
    ∀ (entries : List (String × NodePath)) (m : ExistingMap),
      (List.lookup k (entries.foldl (fun m₁ e => mapAppend m₁ e.1 e.2) m)).getD [] =
          (List.lookup k m).getD [] ++ ((entries.filter (fun e => e.1 == k)).map Prod.snd) ∧
      (List.lookup k (entries.foldl (fun m₁ e => mapAppend m₁ e.1 e.2) m) = none ↔
          List.lookup k m = none ∧ (entries.filter (fun e => e.1 == k)) = []) := by
  intro entries
  induction entries with
  | nil => intro m; simp
  | cons e rest ih =>
    intro m
    obtain ⟨k₁, p⟩ := e
    simp only [List.foldl_cons, List.filter_cons]
    by_cases hk : k₁ = k
    · subst hk
      have hbeq : (k₁ == k₁) = true := by simp
      obtain ⟨ihv, ihn⟩ := ih (mapAppend m k₁ p)
      simp only [hbeq]
      constructor
      · rw [ihv, lookup_mapAppend_same k₁ p m]
        simp
      · rw [ihn, lookup_mapAppend_same k₁ p m]
        simp
    · have hbeq : ((k₁, p).1 == k) = false := by
        simp only [beq_eq_false_iff_ne, ne_eq]
        exact hk
      obtain ⟨ihv, ihn⟩ := ih (mapAppend m k₁ p)
      simp only [hbeq]
      rw [lookup_mapAppend_other k₁ p k (fun he => hk he.symm) m] at ihv ihn
      exact ⟨ihv, ihn⟩

mutual

theorem taggedPathsNode_eq_collect (k : String) :
    ∀ (path : NodePath) (n : Node),
      taggedPathsNode k path n = ((collectTags path n).filter (fun e => e.1 == k)).map Prod.snd
  | path, ⟨nm, nt, x, y, w, h, vis, pid, cid, chars, lt, ch⟩ => by
    rw [taggedPathsNode, collectTags, List.filter_append, List.map_append]
    congr 1
    · by_cases hpid : pid = ""
      · simp [hpid]
      · by_cases hk : pid = k
        · subst hk
          simp [hpid]
        · have h1 : ¬(pid ≠ "" ∧ pid = k) := fun hc => hk hc.2
          have h2 : (pid == k) = false := by
            simp only [beq_eq_false_iff_ne, ne_eq]
            exact hk
          simp only [hpid, h1, h2, ne_eq, not_false_eq_true, if_neg, if_false, List.filter_cons,
            List.filter_nil, List.map_nil]
          simp [hk]
    · by_cases hc : hasChildren nt = true
      · rw [if_pos hc, if_pos hc]
        exact taggedPathsList_eq_collect k path 0 ch
      · rw [if_neg hc, if_neg hc]
        rfl

theorem taggedPathsList_eq_collect (k : String) :
    ∀ (path : NodePath) (i : Nat) (ns : List Node),
      taggedPathsList k path i ns =
        ((collectTagsList path i ns).filter (fun e => e.1 == k)).map Prod.snd
  | path, i, [] => by
    rw [taggedPathsList, collectTagsList]
    rfl
  | path, i, c :: cs => by
    rw [taggedPathsList, collectTagsList, List.filter_append, List.map_append,
      taggedPathsNode_eq_collect k (path ++ [i]) c, taggedPathsList_eq_collect k path (i + 1) cs]

end

/-- The built index looked up at any key yields exactly the tagged paths of
that key, or a miss when no node bears it. -/
theorem lookup_buildExistingMap (page : List Node) (k : String) :
    List.lookup k (buildExistingMap page) =
      if taggedPaths page k = [] then none else some (taggedPaths page k) := by
  obtain ⟨hval, hnone⟩ := lookup_mapFold k (collectTagsList [] 0 page) []
  rw [buildExistingMap, taggedPaths, taggedPathsList_eq_collect k [] 0 page]
  by_cases hf : (collectTagsList [] 0 page).filter (fun e => e.1 == k) = []
  · rw [hf]
    simp only [List.map_nil, if_pos]
    exact hnone.mpr ⟨by simp, hf⟩
  · rw [if_neg (by simp [hf])]
    cases hl : List.lookup k ((collectTagsList [] 0 page).foldl (fun m₁ e => mapAppend m₁ e.1 e.2) []) with
    | none => exact absurd ((hnone.mp hl).2) hf
    | some l =>
      rw [hl] at hval
      simp only [Option.getD] at hval
      simp only [List.lookup] at hval
      rw [hval]
      simp

/-! ### Claim theorems: position preservation (C2) -/

/-- Claim C2, confirmed: any element present before the pass and matched by
some record key keeps its x, y, width and height across the whole pass; the
update path assigns geometry to nothing, and position and size are set only
on newly inserted elements. -/
theorem sync_update_preserves_geometry
    (page : List Node) (templ : Node) (ds : List RecordT) (mappings : List FieldMapping)
    (idField componentId : String) (pg : List Node) (em : ExistingMap) (c u : Nat)
    (hrun : syncMappedData page (some templ) (some ds) (some mappings) idField componentId =
      .done pg em c u)
    (p : NodePath) (n : Node) (hp : subAtList p page = some n)
    (j : Nat) (hj : j < ds.length)
    (hmatch : n.pluginId = recordKey (ds.get ⟨j, hj⟩) idField j) :
    ∃ n₁ : Node, subAtList p pg = some n₁ ∧ n₁.x = n.x ∧ n₁.y = n.y ∧
      n₁.width = n.width ∧ n₁.height = n.height := by
  cases ds with
  | nil => exact absurd hrun (by simp [syncMappedData])
  | cons r rs =>
    cases mappings with
    | nil => exact absurd hrun (by simp [syncMappedData])
    | cons m ms =>
      simp only [syncMappedData, SyncResult.done.injEq] at hrun
      obtain ⟨hpg, hem, hc, hu⟩ := hrun
      obtain ⟨rest, hsk⟩ :=
        syncLoop_skeleton_extend templ (m :: ms) idField componentId (buildExistingMap page)
          (getNextAvailableY page) templ.width templ.height (r :: rs) 0 ⟨page, 0, 0, 0⟩
      obtain ⟨n₁, hsub, hskel⟩ := subAt_of_skeleton_extend page p _ rest hsk n hp
      obtain ⟨_, _, hx, hy, hw, hh, _, _⟩ := skeleton_eq_fields hskel
      exact ⟨n₁, by rw [← hpg]; exact hsub, hx, hy, hw, hh⟩

/-- Witness for the C2 theorem: a concrete matched card keeps its frame. -/
theorem sync_update_preserves_geometry_witness :
    ∃ n₁ : Node, subAtList [0] [sampleTagged] = some n₁ ∧ n₁.x = sampleTagged.x ∧
      n₁.y = sampleTagged.y ∧ n₁.width = sampleTagged.width ∧
      n₁.height = sampleTagged.height :=
  sync_update_preserves_geometry [sampleTagged] sampleCard
    [[("id", Value.str "a"), ("f", Value.str "hi")]] [sampleMapping] "id" "cid"
    [sampleTagged] [("a", [[0]])] 0 1 (by rfl) [0] sampleTagged (by rfl) 0 (by decide) (by decide)

/-! ### Claim theorems: duplicate identifiers (C3) -/

/-- Claim C3, confirmed: when the K elements tagged with a record key all
exist at pass start (K at least 1), syncing that one record applies the
Field Applier through updateInstance to every one of those K elements in
index order, reports updatedCount = K and createdCount = 0, and preserves
every skeleton field (geometry, tags, parent structure) of the page. -/
theorem sync_duplicate_identifiers
    (page : List Node) (templ : Node) (record : RecordT) (m : FieldMapping)
    (ms : List FieldMapping) (idField componentId : String) (ps : List NodePath)
    (htag : taggedPaths page (recordKey record idField 0) = ps) (hne : ps ≠ []) :
    syncMappedData page (some templ) (some [record]) (some (m :: ms)) idField componentId =
      .done (ps.foldl (updateInstanceAt record (m :: ms)) page) (buildExistingMap page) 0
        ps.length ∧
    skeletonList (ps.foldl (updateInstanceAt record (m :: ms)) page) = skeletonList page := by
  have hl : List.lookup (recordKey record idField 0) (buildExistingMap page) = some ps := by
    rw [lookup_buildExistingMap, htag, if_neg hne]
  constructor
  · obtain ⟨q, qs, rfl⟩ := List.exists_cons_of_ne_nil hne
    simp only [syncMappedData, syncLoop]
    rw [processRecord_hit templ (m :: ms) idField componentId (buildExistingMap page)
      (getNextAvailableY page) templ.width templ.height 0 record ⟨page, 0, 0, 0⟩ q qs hl]
    simp
  · exact skeletonList_updateFold record (m :: ms) ps page

/-- Witness for the C3 theorem: two cards tagged "a", one record, two
updates and no creation. -/
theorem sync_duplicate_identifiers_witness :
    syncMappedData [sampleTagged, sampleTagged] (some sampleCard) (some [[("id", Value.str "a")]])
        (some [sampleMapping]) "id" "cid" =
      .done
        (([[0], [1]] : List NodePath).foldl
          (updateInstanceAt [("id", Value.str "a")] [sampleMapping])
          [sampleTagged, sampleTagged])
        (buildExistingMap [sampleTagged, sampleTagged]) 0 ([[0], [1]] : List NodePath).length ∧
    skeletonList
        (([[0], [1]] : List NodePath).foldl
          (updateInstanceAt [("id", Value.str "a")] [sampleMapping])
          [sampleTagged, sampleTagged]) =
      skeletonList [sampleTagged, sampleTagged] :=
  sync_duplicate_identifiers [sampleTagged, sampleTagged] sampleCard [("id", Value.str "a")]
    sampleMapping [] "id" "cid" [[0], [1]] (by decide) (by decide)

/-! ### Locating and mutating one target sublayer -/

mutual

theorem findPathList_valid (name : String) :
    ∀ (ns : List Node) (p : List Nat), findPathList name ns = some p →
      p ≠ [] ∧ ∃ t, subAtList p ns = some t ∧ t.name = name
  | [], p, hf => by simp [findPathList] at hf
  | c :: cs, p, hf => by
    rw [findPathList] at hf
    by_cases hn : c.name = name
    · rw [if_pos hn] at hf
      obtain rfl := Option.some.inj hf
      exact ⟨by simp, c, by rw [subAtList], hn⟩
    · rw [if_neg hn] at hf
      by_cases hc : hasChildren c.ntype = true
      · rw [if_pos hc] at hf
        cases hin : findPathInside name c with
        | some pin =>
          rw [hin] at hf
          dsimp only at hf
          obtain rfl := Option.some.inj hf
          obtain ⟨hne, t, hsub, hname⟩ := findPathInside_valid name c pin hin
          obtain ⟨j, rest, rfl⟩ := List.exists_cons_of_ne_nil hne
          refine ⟨by simp, t, ?_, hname⟩
          rw [subAtList]
          exact hsub
        | none =>
          rw [hin] at hf
          dsimp only at hf
          cases htail : findPathList name cs with
          | some q =>
            rw [htail] at hf
            obtain ⟨hne, t, hsub, hname⟩ := findPathList_valid name cs q htail
            obtain ⟨j, rest, rfl⟩ := List.exists_cons_of_ne_nil hne
            dsimp only at hf
            obtain rfl := Option.some.inj hf
            refine ⟨by simp, t, ?_, hname⟩
            rw [subAtList]
            exact hsub
          | none => rw [htail] at hf; exact absurd hf (by simp)
      · rw [if_neg hc] at hf
        dsimp only at hf
        cases htail : findPathList name cs with
        | some q =>
          rw [htail] at hf
          obtain ⟨hne, t, hsub, hname⟩ := findPathList_valid name cs q htail
          obtain ⟨j, rest, rfl⟩ := List.exists_cons_of_ne_nil hne
          dsimp only at hf
          obtain rfl := Option.some.inj hf
          refine ⟨by simp, t, ?_, hname⟩
          rw [subAtList]
          exact hsub
        | none => rw [htail] at hf; exact absurd hf (by simp)

theorem findPathInside_valid (name : String) :
    ∀ (n : Node) (p : List Nat), findPathInside name n = some p →
      p ≠ [] ∧ ∃ t, subAtInside p n = some t ∧ t.name = name
  | ⟨nm, nt, x, y, w, h, vis, pid, cid, chars, lt, ch⟩, p, hf => by
    rw [findPathInside] at hf
    rw [subAtInside]
    exact findPathList_valid name ch p hf

end

mutual

theorem subAt_modAt_same (f : Node → Node) :
    ∀ (p : List Nat) (ns : List Node), subAtList p (modAtList f p ns) = (subAtList p ns).map f
  | _, [] => by simp [subAtList, modAtList]
  | [], c :: cs => by simp [subAtList, modAtList]
  | [0], c :: cs => by simp [subAtList, modAtList]
  | 0 :: r :: rs, c :: cs => by
    rw [modAtList, subAtList, subAtList]
    exact subAt_modAtInside_same f (r :: rs) c
  | (Nat.succ i) :: p, c :: cs => by
    rw [modAtList, subAtList, subAtList]
    exact subAt_modAt_same f (i :: p) cs

theorem subAt_modAtInside_same (f : Node → Node) :
    ∀ (p : List Nat) (n : Node), subAtInside p (modAtInside f p n) = (subAtInside p n).map f
  | p, ⟨nm, nt, x, y, w, h, vis, pid, cid, chars, lt, ch⟩ => by
    rw [modAtInside, subAtInside, subAtInside]
    exact subAt_modAt_same f p ch

end

theorem visible_parseAndApplyListStyle (t : Node) (raw : String) :
    (parseAndApplyListStyle t raw).visible = t.visible := by
  cases t
  unfold parseAndApplyListStyle
  dsimp only
  split_ifs <;> rfl

theorem visible_applyMappingValue (v : Value) (t : Node) :
    (applyMappingValue v t).visible = parseBoolean v := by
  unfold applyMappingValue
  dsimp only
  split_ifs with h1 h2
  · rfl
  · cases v <;> first | rfl | (rw [visible_parseAndApplyListStyle])
  · rfl

theorem applyMappingValue_false (v : Value) (t : Node) (h : parseBoolean v = false) :
    applyMappingValue v t = { t with visible := false } := by
  unfold applyMappingValue
  simp [h]

/-! ### Claim theorems: unconditional visibility with hidden-skip (C8) -/

/-- Claim C8, confirmed: one rule application whose target sublayer exists
and whose record value is present sets the target visibility to the coerced
boolean whatever the declared rule kind is, and when the coerced value is
false the target is changed in no other field: its text, list style and
whole subtree are left untouched while it is marked invisible. -/
theorem fillStep_visibility (inst : Node) (m : FieldMapping) (record : RecordT) (v : Value)
    (p : List Nat) (hfind : findPathInside m.layerName inst = some p)
    (hval : presentValue record m.dataField = some v) :
    (∀ dt : DataType, fillStep record inst { m with dataType := dt } = fillStep record inst m) ∧
    ∃ t : Node, subAtInside p inst = some t ∧
      subAtInside p (fillStep record inst m) = some (applyMappingValue v t) ∧
      (applyMappingValue v t).visible = parseBoolean v ∧
      (parseBoolean v = false → applyMappingValue v t = { t with visible := false }) := by
  constructor
  · intro dt
    cases m
    rfl
  · obtain ⟨hne, t, hsub, hname⟩ := findPathInside_valid m.layerName inst p hfind
    refine ⟨t, hsub, ?_, visible_applyMappingValue v t,
      fun hfalse => applyMappingValue_false v t hfalse⟩
    cases inst with
    | mk nm nt x y w h vis pid cid chars lt ch =>
      rw [fillStep, hfind, hval]
      dsimp only
      rw [subAtInside] at hsub ⊢
      rw [subAt_modAt_same, hsub]
      rfl

/-- Witness for the C8 theorem: a false-coerced value hides the target text
sublayer of a concrete card without touching its content. -/
theorem fillStep_visibility_witness :
    (∀ dt : DataType,
      fillStep [("f", Value.str "no")] sampleCard { sampleMapping with dataType := dt } =
        fillStep [("f", Value.str "no")] sampleCard sampleMapping) ∧
    ∃ t : Node, subAtInside [0] sampleCard = some t ∧
      subAtInside [0] (fillStep [("f", Value.str "no")] sampleCard sampleMapping) =
        some (applyMappingValue (Value.str "no") t) ∧
      (applyMappingValue (Value.str "no") t).visible = parseBoolean (Value.str "no") ∧
      (parseBoolean (Value.str "no") = false →
        applyMappingValue (Value.str "no") t = { t with visible := false }) :=
  fillStep_visibility sampleCard sampleMapping [("f", Value.str "no")] (Value.str "no") [0]
    (by rfl) (by rfl)

/-! ### Grid placement lemmas -/

theorem foldl_bottom_eq_max :
    ∀ (cs : List Node) (acc : Int),
      cs.foldl (fun acc child => if child.y + child.height > acc then child.y + child.height
        else acc) acc =
      cs.foldl (fun acc child => max acc (child.y + child.height)) acc := by
  intro cs
  induction cs with
  | nil => intro acc; rfl
  | cons c cs ih =>
    intro acc
    simp only [List.foldl_cons]
    rw [ih]
    congr 1
    by_cases hgt : c.y + c.height > acc
    · rw [if_pos hgt, max_eq_right (le_of_lt hgt)]
    · rw [if_neg hgt, max_eq_left (by omega)]

theorem foldl_max_init :
    ∀ (cs : List Node) (a b : Int),
      cs.foldl (fun acc child => max acc (child.y + child.height)) (max a b) =
        max a (cs.foldl (fun acc child => max acc (child.y + child.height)) b) := by
  intro cs
  induction cs with
  | nil => intro a b; rfl
  | cons c cs ih =>
    intro a b
    simp only [List.foldl_cons]
    rw [max_assoc, ih]

theorem getNextAvailableY_cons (c : Node) (cs : List Node) :
    getNextAvailableY (c :: cs) =
      if 0 < maxBottomOver c cs then maxBottomOver c cs + CARD_GAP * 2 else 0 := by
  unfold getNextAvailableY maxBottomOver
  simp only [List.foldl_cons, foldl_bottom_eq_max]
  have h0 : (if c.y + c.height > 0 then c.y + c.height else 0) = max 0 (c.y + c.height) := by
    by_cases hgt : c.y + c.height > 0
    · rw [if_pos hgt, max_eq_right (le_of_lt hgt)]
    · rw [if_neg hgt, max_eq_left (by omega)]
  rw [h0, foldl_max_init]
  rcases le_or_lt (cs.foldl (fun acc child => max acc (child.y + child.height))
    (c.y + c.height)) 0 with hle | hlt
  · rw [max_eq_left hle, if_neg (lt_irrefl (0 : Int)), if_neg (not_lt.mpr hle)]
  · rw [max_eq_right (le_of_lt hlt), if_pos hlt]

theorem insertedList_length (templateNode : Node) (mappings : List FieldMapping)
    (idField componentId : String) (startY cardWidth cardHeight : Int) :
    ∀ (rs : List RecordT) (i idx : Nat),
      (insertedList templateNode mappings idField componentId startY cardWidth cardHeight
        i idx rs).length = rs.length := by
  intro rs
  induction rs with
  | nil => intro i idx; rfl
  | cons r rs ih =>
    intro i idx
    simp only [insertedList, List.length_cons, ih]

theorem insertedList_get? (templateNode : Node) (mappings : List FieldMapping)
    (idField componentId : String) (startY cardWidth cardHeight : Int) :
    ∀ (rs : List RecordT) (i idx k : Nat),
      (insertedList templateNode mappings idField componentId startY cardWidth cardHeight
          i idx rs).get? k =
        (rs.get? k).map
          (insertedNode templateNode mappings idField componentId startY cardWidth cardHeight
            (i + k) (idx + k)) := by
  intro rs
  induction rs with
  | nil => intro i idx k; simp [insertedList]
  | cons r rs ih =>
    intro i idx k
    cases k with
    | zero => simp [insertedList]
    | succ k =>
      simp only [insertedList, List.get?_cons_succ, ih (i + 1) (idx + 1) k]
      have h1 : i + 1 + k = i + (k + 1) := by omega
      have h2 : idx + 1 + k = idx + (k + 1) := by omega
      rw [h1, h2]

theorem insertedNode_geometry (templateNode : Node) (mappings : List FieldMapping)
    (idField componentId : String) (startY cardWidth cardHeight : Int) (i idx : Nat)
    (r : RecordT) :
    (insertedNode templateNode mappings idField componentId startY cardWidth cardHeight
        i idx r).x = gridX cardWidth idx ∧
    (insertedNode templateNode mappings idField componentId startY cardWidth cardHeight
        i idx r).y = gridY startY cardHeight idx ∧
    (insertedNode templateNode mappings idField componentId startY cardWidth cardHeight
        i idx r).width = templateNode.width ∧
    (insertedNode templateNode mappings idField componentId startY cardWidth cardHeight
        i idx r).height = templateNode.height := by
  unfold insertedNode
  obtain ⟨_, _, hx, hy, hw, hh, _, _⟩ :=
    skeleton_eq_fields (skeleton_fillInstanceData r mappings _)
  exact ⟨hx, hy.trans rfl, hw, hh⟩

theorem grid_band_separation (w : Int) (hw : 0 ≤ w) (c1 c2 : Nat) (hc : c1 < c2) :
    (c1 : Int) * (w + CARD_GAP) + w < (c2 : Int) * (w + CARD_GAP) := by
  have h1 : ((c1 : Int) + 1) * (w + CARD_GAP) ≤ (c2 : Int) * (w + CARD_GAP) := by
    apply mul_le_mul_of_nonneg_right
    · exact_mod_cast hc
    · unfold CARD_GAP
      omega
  have h2 : ((c1 : Int) + 1) * (w + CARD_GAP) = (c1 : Int) * (w + CARD_GAP) + (w + CARD_GAP) := by
    ring
  rw [h2] at h1
  unfold CARD_GAP at h1 ⊢
  omega

theorem grid_cells_disjoint (w h startY : Int) (hw : 0 ≤ w) (hh : 0 ≤ h)
    {a b : Node} (j k : Nat) (hjk : j ≠ k)
    (hax : a.x = gridX w j) (hay : a.y = gridY startY h j)
    (haw : a.width = w) (hah : a.height = h)
    (hbx : b.x = gridX w k) (hby : b.y = gridY startY h k)
    (hbw : b.width = w) (hbh : b.height = h) :
    ¬ rectOverlap a b := by
  rintro ⟨h1, h2, h3, h4⟩
  simp only [hax, hay, haw, hah, hbx, hby, hbw, hbh] at h1 h2 h3 h4
  unfold gridX at h1 h2
  unfold gridY at h3 h4
  have hcase : j % CARDS_PER_ROW ≠ k % CARDS_PER_ROW ∨
      j / CARDS_PER_ROW ≠ k / CARDS_PER_ROW := by
    by_contra hcon
    push_neg at hcon
    apply hjk
    unfold CARDS_PER_ROW at hcon
    omega
  rcases hcase with hcol | hrow
  · rcases Nat.lt_or_ge (j % CARDS_PER_ROW) (k % CARDS_PER_ROW) with hlt | hge
    · exact absurd h2 (not_lt.mpr (le_of_lt
        (grid_band_separation w hw (j % CARDS_PER_ROW) (k % CARDS_PER_ROW) hlt)))
    · have hlt : k % CARDS_PER_ROW < j % CARDS_PER_ROW := by omega
      exact absurd h1 (not_lt.mpr (le_of_lt
        (grid_band_separation w hw (k % CARDS_PER_ROW) (j % CARDS_PER_ROW) hlt)))
  · rcases Nat.lt_or_ge (j / CARDS_PER_ROW) (k / CARDS_PER_ROW) with hlt | hge
    · have := grid_band_separation h hh (j / CARDS_PER_ROW) (k / CARDS_PER_ROW) hlt
      omega
    · have hlt : k / CARDS_PER_ROW < j / CARDS_PER_ROW := by omega
      have := grid_band_separation h hh (k / CARDS_PER_ROW) (j / CARDS_PER_ROW) hlt
      omega

theorem syncLoop_empty_map (templateNode : Node) (mappings : List FieldMapping)
    (idField componentId : String) (startY cardWidth cardHeight : Int) :
    ∀ (rs : List RecordT) (i : Nat) (st : SyncState),
      syncLoop templateNode mappings idField componentId [] startY cardWidth cardHeight
          i rs st =
        { page := st.page ++
            insertedList templateNode mappings idField componentId startY cardWidth cardHeight
              i st.newIndex rs,
          newIndex := st.newIndex + rs.length,
          updatedCount := st.updatedCount,
          createdCount := st.createdCount + rs.length } := by
  intro rs
  induction rs with
  | nil =>
    intro i st
    simp [syncLoop, insertedList]
  | cons r rs ih =>
    intro i st
    simp only [syncLoop]
    rw [processRecord_miss templateNode mappings idField componentId [] startY cardWidth
      cardHeight i r st (Or.inl rfl)]
    rw [ih (i + 1)]
    dsimp only
    simp only [insertedList, List.length_cons]
    congr 1
    · rw [List.append_assoc]
      rfl
    · omega
    · omega

/-! ### Claim theorems: new-element placement (C6) -/

/-- Counterexample to claim C6 as stated: a document whose single child lies
entirely above the canvas origin has maximum (y + height) equal to -50, so
the claimed insertion origin is -50 + 40 = -10, but getNextAvailableY keeps
its running maximum at the starting value 0 and returns 0. -/
theorem getNextAvailableY_negative_mismatch :
    getNextAvailableY [⟨"n", .FRAME, 0, -100, 50, 50, true, "", "", "", .NONE, []⟩] = 0 ∧
    maxBottomOver ⟨"n", .FRAME, 0, -100, 50, 50, true, "", "", "", .NONE, []⟩ [] = -50 ∧
    (-50 : Int) + CARD_GAP * 2 = -10 ∧ (0 : Int) ≠ -10 := by
  decide

/-- Claim C6, amended: the insertion origin is zero for an empty document,
and for a nonempty one equals the maximum (y + height) over the top-level
children plus a two-gap margin whenever that maximum is positive, and zero
otherwise; inserting K records into an empty document creates K elements in
input order, the k-th at column k mod 4 and row k div 4 of the grid with the
template dimensions and the fixed gap, filling ceil(K/4) rows of at most 4
columns with no two created elements overlapping. -/
theorem sync_grid_placement :
    (getNextAvailableY [] = 0) ∧
    (∀ (c : Node) (cs : List Node),
      getNextAvailableY (c :: cs) =
        if 0 < maxBottomOver c cs then maxBottomOver c cs + CARD_GAP * 2 else 0) ∧
    (∀ (templ : Node) (m : FieldMapping) (ms : List FieldMapping) (idField componentId : String)
        (d : RecordT) (ds : List RecordT), 0 ≤ templ.width → 0 ≤ templ.height →
      ∃ pg : List Node,
        syncMappedData [] (some templ) (some (d :: ds)) (some (m :: ms)) idField componentId =
          .done pg (buildExistingMap []) (d :: ds).length 0 ∧
        pg.length = (d :: ds).length ∧
        (∀ (k : Nat) (hk : k < pg.length),
          (pg.get ⟨k, hk⟩).x = gridX templ.width k ∧
          (pg.get ⟨k, hk⟩).y = gridY 0 templ.height k ∧
          (pg.get ⟨k, hk⟩).width = templ.width ∧
          (pg.get ⟨k, hk⟩).height = templ.height ∧
          k % CARDS_PER_ROW < CARDS_PER_ROW ∧
          k / CARDS_PER_ROW ≤ ((d :: ds).length - 1) / CARDS_PER_ROW) ∧
        (((d :: ds).length - 1) / CARDS_PER_ROW + 1 = ((d :: ds).length + 3) / CARDS_PER_ROW) ∧
        (∀ (j k : Nat) (hj : j < pg.length) (hk : k < pg.length), j ≠ k →
          ¬ rectOverlap (pg.get ⟨j, hj⟩) (pg.get ⟨k, hk⟩))) := by
  refine ⟨rfl, getNextAvailableY_cons, ?_⟩
  intro templ m ms idField componentId d ds hw hh
  refine ⟨insertedList templ (m :: ms) idField componentId 0 templ.width templ.height 0 0
    (d :: ds), ?_, ?_, ?_, ?_, ?_⟩
  · simp only [syncMappedData]
    have hbm : buildExistingMap ([] : List Node) = [] := rfl
    have hsy : getNextAvailableY ([] : List Node) = 0 := rfl
    rw [hbm, hsy, syncLoop_empty_map templ (m :: ms) idField componentId 0 templ.width
      templ.height (d :: ds) 0 ⟨[], 0, 0, 0⟩]
    simp
  · exact insertedList_length templ (m :: ms) idField componentId 0 templ.width templ.height
      (d :: ds) 0 0
  · intro k hk
    have hk₁ : k < (d :: ds).length := by
      rw [← insertedList_length templ (m :: ms) idField componentId 0 templ.width templ.height
        (d :: ds) 0 0]
      exact hk
    have hget := insertedList_get? templ (m :: ms) idField componentId 0 templ.width
      templ.height (d :: ds) 0 0 k
    rw [List.get?_eq_get hk, List.get?_eq_get hk₁] at hget
    simp only [Option.map, Nat.zero_add] at hget
    obtain hget := Option.some.inj hget
    rw [hget]
    obtain ⟨hx, hy, hwid, hht⟩ := insertedNode_geometry templ (m :: ms) idField componentId 0
      templ.width templ.height k k ((d :: ds).get ⟨k, hk₁⟩)
    refine ⟨hx, hy, hwid, hht, ?_, ?_⟩
    · unfold CARDS_PER_ROW
      omega
    · have hlen : 0 < (d :: ds).length := by simp
      unfold CARDS_PER_ROW
      simp only [List.length_cons] at hk₁ ⊢
      omega
  · unfold CARDS_PER_ROW
    simp only [List.length_cons]
    omega
  · intro j k hj hk hjk
    have hj₁ : j < (d :: ds).length := by
      rw [← insertedList_length templ (m :: ms) idField componentId 0 templ.width templ.height
        (d :: ds) 0 0]
      exact hj
    have hk₁ : k < (d :: ds).length := by
      rw [← insertedList_length templ (m :: ms) idField componentId 0 templ.width templ.height
        (d :: ds) 0 0]
      exact hk
    have hgetj := insertedList_get? templ (m :: ms) idField componentId 0 templ.width
      templ.height (d :: ds) 0 0 j
    have hgetk := insertedList_get? templ (m :: ms) idField componentId 0 templ.width
      templ.height (d :: ds) 0 0 k
    rw [List.get?_eq_get hj, List.get?_eq_get hj₁] at hgetj
    rw [List.get?_eq_get hk, List.get?_eq_get hk₁] at hgetk
    simp only [Option.map, Nat.zero_add] at hgetj hgetk
    obtain hgetj := Option.some.inj hgetj
    obtain hgetk := Option.some.inj hgetk
    rw [hgetj, hgetk]
    obtain ⟨hxj, hyj, hwj, hhj⟩ := insertedNode_geometry templ (m :: ms) idField componentId 0
      templ.width templ.height j j ((d :: ds).get ⟨j, hj₁⟩)
    obtain ⟨hxk, hyk, hwk, hhk⟩ := insertedNode_geometry templ (m :: ms) idField componentId 0
      templ.width templ.height k k ((d :: ds).get ⟨k, hk₁⟩)
    exact grid_cells_disjoint templ.width templ.height 0 hw hh j k hjk hxj hyj hwj hhj hxk hyk
      hwk hhk

/-- Witness for the C6 theorem: five records on an empty page occupy two grid
rows. -/
theorem sync_grid_placement_witness :
    ∃ pg : List Node,
      syncMappedData [] (some sampleFrame)
          (some [[("id", Value.str "a")], [("id", Value.str "b")], [("id", Value.str "c")],
            [("id", Value.str "d")], [("id", Value.str "e")]])
          (some [sampleMapping]) "id" "cid" =
        .done pg (buildExistingMap [])
          ([[("id", Value.str "a")], [("id", Value.str "b")], [("id", Value.str "c")],
            [("id", Value.str "d")], [("id", Value.str "e")]] : List RecordT).length 0 ∧
      pg.length = ([[("id", Value.str "a")], [("id", Value.str "b")], [("id", Value.str "c")],
        [("id", Value.str "d")], [("id", Value.str "e")]] : List RecordT).length ∧
      (∀ (k : Nat) (hk : k < pg.length),
        (pg.get ⟨k, hk⟩).x = gridX sampleFrame.width k ∧
        (pg.get ⟨k, hk⟩).y = gridY 0 sampleFrame.height k ∧
        (pg.get ⟨k, hk⟩).width = sampleFrame.width ∧
        (pg.get ⟨k, hk⟩).height = sampleFrame.height ∧
        k % CARDS_PER_ROW < CARDS_PER_ROW ∧
        k / CARDS_PER_ROW ≤ (([[("id", Value.str "a")], [("id", Value.str "b")],
          [("id", Value.str "c")], [("id", Value.str "d")],
          [("id", Value.str "e")]] : List RecordT).length - 1) / CARDS_PER_ROW) ∧
      ((([[("id", Value.str "a")], [("id", Value.str "b")], [("id", Value.str "c")],
        [("id", Value.str "d")], [("id", Value.str "e")]] : List RecordT).length - 1) /
          CARDS_PER_ROW + 1 =
        (([[("id", Value.str "a")], [("id", Value.str "b")], [("id", Value.str "c")],
          [("id", Value.str "d")], [("id", Value.str "e")]] : List RecordT).length + 3) /
          CARDS_PER_ROW) ∧
      (∀ (j k : Nat) (hj : j < pg.length) (hk : k < pg.length), j ≠ k →
        ¬ rectOverlap (pg.get ⟨j, hj⟩) (pg.get ⟨k, hk⟩)) :=
  sync_grid_placement.2.2 sampleFrame sampleMapping [] "id" "cid" [("id", Value.str "a")]
    [[("id", Value.str "b")], [("id", Value.str "c")], [("id", Value.str "d")],
      [("id", Value.str "e")]] (by decide) (by decide)

/-! ### Scalar action of one Field-Applier mutation -/

theorem children_parseAndApplyListStyle (t : Node) (raw : String) :
    (parseAndApplyListStyle t raw).children = t.children := by
  cases t
  unfold parseAndApplyListStyle
  dsimp only
  split_ifs <;> rfl

theorem children_applyMappingValue (v : Value) (t : Node) :
    (applyMappingValue v t).children = t.children := by
  unfold applyMappingValue
  dsimp only
  split_ifs
  · rfl
  · cases v <;> first | rfl | (rw [children_parseAndApplyListStyle])
  · rfl

theorem ntype_applyMappingValue (v : Value) (t : Node) :
    (applyMappingValue v t).ntype = t.ntype :=
  (skeleton_eq_fields (skeleton_applyMappingValue v t)).2.1

theorem scalars_parseAndApplyListStyle (t : Node) (raw : String) :
    scalarsOf (parseAndApplyListStyle t raw) =
      (t.visible, (parseScalars raw).1, (parseScalars raw).2) := by
  cases t
  cases h : testNumbered ((splitLines raw).head?.getD "") <;>
    simp [parseAndApplyListStyle, parseScalars, h, scalarsOf]

theorem scalars_applyMappingValue (v : Value) (t : Node) :
    scalarsOf (applyMappingValue v t) = applyScalar v t.ntype (scalarsOf t) := by
  by_cases hv : parseBoolean v = true
  · cases t with
    | mk nm nt x y w h vis pid cid chars lt ch =>
      unfold applyMappingValue applyScalar
      dsimp only [scalarsOf]
      have hnot : ¬((!parseBoolean v) = true) := by simp [hv]
      rw [if_neg hnot, if_neg hnot]
      by_cases ht : nt = NType.TEXT
      · rw [if_pos ht, if_pos ht]
        cases v with
        | bool b => rfl
        | str s => exact scalars_parseAndApplyListStyle _ _
        | num n => exact scalars_parseAndApplyListStyle _ _
        | null => exact scalars_parseAndApplyListStyle _ _
      · rw [if_neg ht, if_neg ht]
  · simp only [Bool.not_eq_true] at hv
    rw [applyMappingValue_false v t hv]
    cases t with
    | mk nm nt x y w h vis pid cid chars lt ch =>
      unfold applyScalar
      dsimp only [scalarsOf]
      have hyes : (!parseBoolean v) = true := by simp [hv]
      rw [if_pos hyes, hv]

theorem applyScalar_eq_view (v : Value) (nt : NType) (s : Bool × String × ListType) :
    applyScalar v nt s =
      (parseBoolean v,
        if isContentWrite nt v then parseScalars (valueToString v) else s.2) := by
  unfold applyScalar isContentWrite
  dsimp only
  by_cases hv : parseBoolean v = true
  · have hnot : ¬((!parseBoolean v) = true) := by simp [hv]
    rw [if_neg hnot]
    by_cases ht : nt = NType.TEXT
    · rw [if_pos ht]
      cases v with
      | bool b =>
        have hcw :
            ¬((parseBoolean (Value.bool b) && decide (nt = NType.TEXT) &&
              !isBoolValue (Value.bool b)) = true) := by
          simp [isBoolValue]
        rw [if_neg hcw]
      | str sv =>
        have hcw :
            (parseBoolean (Value.str sv) && decide (nt = NType.TEXT) &&
              !isBoolValue (Value.str sv)) = true := by
          simp [isBoolValue, hv, ht]
        rw [if_pos hcw]
      | num nv =>
        have hcw :
            (parseBoolean (Value.num nv) && decide (nt = NType.TEXT) &&
              !isBoolValue (Value.num nv)) = true := by
          simp [isBoolValue, hv, ht]
        rw [if_pos hcw]
      | null =>
        have hcw :
            (parseBoolean Value.null && decide (nt = NType.TEXT) &&
              !isBoolValue Value.null) = true := by
          simp [isBoolValue, hv, ht]
        rw [if_pos hcw]
    · have hcw : ¬((parseBoolean v && decide (nt = NType.TEXT) && !isBoolValue v) = true) := by
        simp [ht]
      rw [if_neg ht, if_neg hcw]
  · simp only [Bool.not_eq_true] at hv
    have hyes : (!parseBoolean v) = true := by simp [hv]
    have hcw : ¬((parseBoolean v && decide (nt = NType.TEXT) && !isBoolValue v) = true) := by
      simp [hv]
    rw [if_pos hyes, if_neg hcw, hv]

theorem chainContent_cons (nt : NType) (cl : String × ListType) (v : Value) (vs : List Value) :
    chainContent nt cl (v :: vs) =
      chainContent nt (if isContentWrite nt v then parseScalars (valueToString v) else cl) vs :=
  rfl

theorem applyScalarChain_eq (nt : NType) :
    ∀ (vs : List Value) (b : Bool) (cl : String × ListType),
      applyScalarChain nt (b, cl) vs = (chainVis b vs, chainContent nt cl vs) := by
  intro vs
  induction vs with
  | nil => intro b cl; rfl
  | cons v vs ih =>
    intro b cl
    show applyScalarChain nt (applyScalar v nt (b, cl)) vs = _
    rw [applyScalar_eq_view, ih]
    rfl

theorem chainVis_idem (b : Bool) (vs : List Value) :
    chainVis (chainVis b vs) vs = chainVis b vs := by
  cases vs with
  | nil => rfl
  | cons v vs => rfl

theorem chainContent_idem (nt : NType) :
    ∀ (vs : List Value) (cl : String × ListType),
      chainContent nt (chainContent nt cl vs) vs = chainContent nt cl vs := by
  intro vs
  induction vs with
  | nil => intro cl; rfl
  | cons v vs ih =>
    intro cl
    simp only [chainContent_cons]
    by_cases h : isContentWrite nt v = true
    · rw [if_pos h, if_pos h]
    · rw [if_neg h, if_neg h]
      exact ih cl

theorem applyScalarChain_idem (nt : NType) (s : Bool × String × ListType) (vs : List Value) :
    applyScalarChain nt (applyScalarChain nt s vs) vs = applyScalarChain nt s vs := by
  obtain ⟨b, cl⟩ := s
  have h1 := applyScalarChain_eq nt vs b cl
  rw [h1]
  have h2 := applyScalarChain_eq nt vs (chainVis b vs) (chainContent nt cl vs)
  rw [h2, chainVis_idem, chainContent_idem]

/-! ### Structural lemmas for path addressing and in-place mutation -/

theorem subAtList_nil_path : ∀ ns : List Node, subAtList [] ns = none
  | [] => rfl
  | _ :: _ => rfl

theorem modAtList_nil_path (f : Node → Node) : ∀ ns : List Node, modAtList f [] ns = ns
  | [] => rfl
  | _ :: _ => rfl

theorem subAtInside_children (p : List Nat) (n : Node) :
    subAtInside p n = subAtList p n.children := by
  cases n
  rfl

theorem findPathInside_children (name : String) (n : Node) :
    findPathInside name n = findPathList name n.children := by
  cases n
  rfl

theorem modAtInside_children (f : Node → Node) (p : List Nat) (n : Node) :
    modAtInside f p n = { n with children := modAtList f p n.children } := by
  cases n
  rfl

mutual

theorem modAtList_invalid (f : Node → Node) :
    ∀ (p : List Nat) (ns : List Node), subAtList p ns = none → modAtList f p ns = ns
  | _, [], _ => by rw [modAtList]
  | [], _ :: _, _ => by rw [modAtList]
  | [0], c :: cs, h => by rw [subAtList] at h; exact absurd h (by simp)
  | 0 :: r :: rs, c :: cs, h => by
    rw [subAtList] at h
    rw [modAtList, modAtInside_invalid f (r :: rs) c h]
  | (Nat.succ i) :: p, c :: cs, h => by
    rw [subAtList] at h
    rw [modAtList, modAtList_invalid f (i :: p) cs h]

theorem modAtInside_invalid (f : Node → Node) :
    ∀ (p : List Nat) (n : Node), subAtInside p n = none → modAtInside f p n = n
  | p, ⟨nm, nt, x, y, w, h, vis, pid, cid, chars, lt, ch⟩, hn => by
    rw [subAtInside] at hn
    rw [modAtInside, modAtList_invalid f p ch hn]

end

mutual

theorem modAtList_congr (f g : Node → Node) :
    ∀ (p : List Nat) (ns : List Node) (n : Node), subAtList p ns = some n → f n = g n →
      modAtList f p ns = modAtList g p ns
  | _, [], n, h, _ => by rw [subAtList] at h; exact absurd h (by simp)
  | [], _ :: _, n, h, _ => by rw [subAtList] at h; exact absurd h (by simp)
  | [0], c :: cs, n, h, hfg => by
    rw [subAtList] at h
    obtain rfl := Option.some.inj h
    rw [modAtList, modAtList, hfg]
  | 0 :: r :: rs, c :: cs, n, h, hfg => by
    rw [subAtList] at h
    rw [modAtList, modAtList, modAtInside_congr f g (r :: rs) c n h hfg]
  | (Nat.succ i) :: p, c :: cs, n, h, hfg => by
    rw [subAtList] at h
    rw [modAtList, modAtList, modAtList_congr f g (i :: p) cs n h hfg]

theorem modAtInside_congr (f g : Node → Node) :
    ∀ (p : List Nat) (nd : Node) (n : Node), subAtInside p nd = some n → f n = g n →
      modAtInside f p nd = modAtInside g p nd
  | p, ⟨nm, nt, x, y, w, h, vis, pid, cid, chars, lt, ch⟩, n, hs, hfg => by
    rw [subAtInside] at hs
    rw [modAtInside, modAtInside, modAtList_congr f g p ch n hs hfg]

end

mutual

theorem modAtList_id : ∀ (p : List Nat) (ns : List Node), modAtList (fun x => x) p ns = ns
  | _, [] => by rw [modAtList]
  | [], _ :: _ => by rw [modAtList]
  | [0], c :: cs => by rw [modAtList]
  | 0 :: r :: rs, c :: cs => by rw [modAtList, modAtInside_id (r :: rs) c]
  | (Nat.succ i) :: p, c :: cs => by rw [modAtList, modAtList_id (i :: p) cs]

theorem modAtInside_id : ∀ (p : List Nat) (n : Node), modAtInside (fun x => x) p n = n
  | p, ⟨nm, nt, x, y, w, h, vis, pid, cid, chars, lt, ch⟩ => by
    rw [modAtInside, modAtList_id p ch]

end

theorem modAtList_fix (f : Node → Node) (p : List Nat) (ns : List Node) (n : Node)
    (hs : subAtList p ns = some n) (hf : f n = n) : modAtList f p ns = ns := by
  rw [modAtList_congr f (fun x => x) p ns n hs hf, modAtList_id]

mutual

theorem modAtList_compose (f : Node → Node) :
    ∀ (p q : List Nat) (ns : List Node), p ≠ [] → q ≠ [] →
      modAtList f (p ++ q) ns = modAtList (fun x => modAtInside f q x) p ns
  | _, _, [], _, _ => by rw [modAtList, modAtList]
  | [], _, _ :: _, hp, _ => absurd rfl hp
  | [0], q, c :: cs, _, hq => by
    obtain ⟨r, rs, rfl⟩ := List.exists_cons_of_ne_nil hq
    simp only [List.cons_append, List.nil_append]
    rw [modAtList, modAtList]
  | 0 :: r₁ :: rs₁, q, c :: cs, _, hq => by
    simp only [List.cons_append]
    rw [modAtList, modAtList]
    have hin := modAtInside_compose f (r₁ :: rs₁) q c (by simp) hq
    simp only [List.cons_append] at hin
    rw [hin]
  | (Nat.succ i) :: p₁, q, c :: cs, _, hq => by
    simp only [List.cons_append]
    rw [modAtList, modAtList]
    have hin := modAtList_compose f (i :: p₁) q cs (by simp) hq
    simp only [List.cons_append] at hin
    rw [hin]

theorem modAtInside_compose (f : Node → Node) :
    ∀ (p q : List Nat) (n : Node), p ≠ [] → q ≠ [] →
      modAtInside f (p ++ q) n = modAtInside (fun x => modAtInside f q x) p n
  | p, q, ⟨nm, nt, x, y, w, h, vis, pid, cid, chars, lt, ch⟩, hp, hq => by
    rw [modAtInside, modAtInside, modAtList_compose f p q ch hp hq]

end

theorem subAtList_append (xs : List Node) :
    ∀ (p : List Nat) (ns : List Node) (n : Node), subAtList p ns = some n →
      subAtList p (ns ++ xs) = some n
  | _, [], n, h => by rw [subAtList] at h; exact absurd h (by simp)
  | [], _ :: _, n, h => by rw [subAtList] at h; exact absurd h (by simp)
  | [0], c :: cs, n, h => by
    rw [subAtList] at h
    rw [List.cons_append, subAtList]
    exact h
  | 0 :: r :: rs, c :: cs, n, h => by
    rw [subAtList] at h
    rw [List.cons_append, subAtList]
    exact h
  | (Nat.succ i) :: p, c :: cs, n, h => by
    rw [subAtList] at h
    rw [List.cons_append, subAtList]
    exact subAtList_append xs (i :: p) cs n h

theorem modAtList_append_left (f : Node → Node) (xs : List Node) :
    ∀ (p : List Nat) (ns : List Node), headLt p ns.length →
      modAtList f p (ns ++ xs) = modAtList f p ns ++ xs
  | [], ns, _ => by rw [modAtList_nil_path, modAtList_nil_path]
  | i :: p, [], h => absurd h (by simp [headLt])
  | 0 :: [], c :: cs, _ => by
    rw [List.cons_append, modAtList, modAtList, List.cons_append]
  | 0 :: r :: rs, c :: cs, _ => by
    rw [List.cons_append, modAtList, modAtList, List.cons_append]
  | (Nat.succ i) :: p, c :: cs, h => by
    rw [List.cons_append, modAtList, modAtList, List.cons_append,
      modAtList_append_left f xs (i :: p) cs
        (by simp only [headLt, List.length_cons] at h ⊢; omega)]

theorem modAtList_append_exact (f : Node → Node) (x : Node) (r : Nat) (rs : List Nat) :
    ∀ ns : List Node,
      modAtList f (ns.length :: r :: rs) (ns ++ [x]) = ns ++ [modAtInside f (r :: rs) x] := by
  intro ns
  induction ns with
  | nil => rfl
  | cons c cs ih =>
    show modAtList f ((Nat.succ cs.length) :: r :: rs) (c :: (cs ++ [x])) =
      c :: (cs ++ [modAtInside f (r :: rs) x])
    rw [modAtList, ih]

theorem modAtList_length (f : Node → Node) :
    ∀ (p : List Nat) (ns : List Node), (modAtList f p ns).length = ns.length
  | _, [] => by rw [modAtList]
  | [], _ :: _ => by rw [modAtList]
  | [0], c :: cs => by rw [modAtList, List.length_cons, List.length_cons]
  | 0 :: r :: rs, c :: cs => by rw [modAtList, List.length_cons, List.length_cons]
  | (Nat.succ i) :: p, c :: cs => by
    rw [modAtList, List.length_cons, List.length_cons, modAtList_length f (i :: p) cs]

theorem subAtList_singleton : ∀ (m : Nat) (ns : List Node), subAtList [m] ns = ns.get? m
  | _, [] => by rw [subAtList]; rfl
  | 0, c :: cs => by rw [subAtList]; rfl
  | Nat.succ i, c :: cs => by
    rw [subAtList, subAtList_singleton i cs]
    rfl

theorem subAtList_head_lt :
    ∀ (i : Nat) (p : List Nat) (ns : List Node) (n : Node),
      subAtList (i :: p) ns = some n → i < ns.length
  | _, _, [], n, h => by rw [subAtList] at h; exact absurd h (by simp)
  | 0, p, c :: cs, n, _ => by simp
  | Nat.succ i, p, c :: cs, n, h => by
    rw [subAtList] at h
    have := subAtList_head_lt i p cs n h
    simp only [List.length_cons]
    omega

/-! ### Node views under recorded writes -/

theorem nodeView_modAtInside (f : Node → Node) (p : List Nat) (n : Node) :
    nodeView (modAtInside f p n) = nodeView n := by
  cases n
  rfl

mutual

theorem nodeView_modAtList_other (f : Node → Node) (hfc : ∀ n, (f n).children = n.children) :
    ∀ (p q : List Nat) (ns : List Node), p ≠ q →
      (subAtList p (modAtList f q ns)).map nodeView = (subAtList p ns).map nodeView
  | _, _, [], _ => by rw [modAtList]
  | _, [], _ :: _, _ => by rw [modAtList]
  | p, [0], c :: cs, hpq => by
    rw [modAtList]
    cases p with
    | nil => rw [subAtList_nil_path, subAtList_nil_path]
    | cons j ps =>
      cases j with
      | zero =>
        cases ps with
        | nil => exact absurd rfl hpq
        | cons r rs =>
          rw [subAtList, subAtList, subAtInside_children, subAtInside_children, hfc]
      | succ i => rw [subAtList, subAtList]
  | p, 0 :: r :: rs, c :: cs, hpq => by
    rw [modAtList]
    cases p with
    | nil => rw [subAtList_nil_path, subAtList_nil_path]
    | cons j ps =>
      cases j with
      | zero =>
        cases ps with
        | nil =>
          rw [subAtList, subAtList]
          simp only [Option.map]
          rw [nodeView_modAtInside]
        | cons r₁ rs₁ =>
          rw [subAtList, subAtList]
          exact nodeView_modAtInside_other f hfc (r₁ :: rs₁) (r :: rs) c
            (fun he => hpq (congrArg (List.cons 0) he))
      | succ i => rw [subAtList, subAtList]
  | p, (Nat.succ j) :: qs, c :: cs, hpq => by
    rw [modAtList]
    cases p with
    | nil => rw [subAtList_nil_path, subAtList_nil_path]
    | cons j₁ ps =>
      cases j₁ with
      | zero =>
        cases ps with
        | nil => rw [subAtList, subAtList]
        | cons r rs => rw [subAtList, subAtList]
      | succ i =>
        rw [subAtList, subAtList]
        refine nodeView_modAtList_other f hfc (i :: ps) (j :: qs) cs ?_
        intro he
        apply hpq
        injection he with h1 h2
        rw [h1, h2]

theorem nodeView_modAtInside_other (f : Node → Node) (hfc : ∀ n, (f n).children = n.children) :
    ∀ (p q : List Nat) (n : Node), p ≠ q →
      (subAtInside p (modAtInside f q n)).map nodeView = (subAtInside p n).map nodeView
  | p, q, ⟨nm, nt, x, y, w, h, vis, pid, cid, chars, lt, ch⟩, hpq => by
    rw [modAtInside, subAtInside, subAtInside]
    exact nodeView_modAtList_other f hfc p q ch hpq

end

theorem nodeView_applyMappingValue (v : Value) (n : Node) :
    nodeView (applyMappingValue v n) = (n.ntype, applyScalar v n.ntype (scalarsOf n)) := by
  unfold nodeView
  rw [ntype_applyMappingValue, scalars_applyMappingValue]

theorem writeValuesAt_cons_same (w : TagWrite) (ws : List TagWrite) :
    writeValuesAt w.path (w :: ws) = w.value :: writeValuesAt w.path ws := by
  unfold writeValuesAt
  rw [List.filter_cons, if_pos (by simp)]
  rfl

theorem writeValuesAt_cons_other (p : List Nat) (w : TagWrite) (ws : List TagWrite)
    (h : w.path ≠ p) : writeValuesAt p (w :: ws) = writeValuesAt p ws := by
  unfold writeValuesAt
  rw [List.filter_cons, if_neg (by simpa using h)]

theorem map_view_congr (o₁ o₂ : Option Node)
    (h : o₁.map nodeView = o₂.map nodeView)
    (F : Node → NType × Bool × String × ListType)
    (hF : ∀ a b : Node, nodeView a = nodeView b → F a = F b) :
    o₁.map F = o₂.map F := by
  cases o₁ with
  | none =>
    cases o₂ with
    | none => rfl
    | some b => simp at h
  | some a =>
    cases o₂ with
    | none => simp at h
    | some b =>
      simp only [Option.map] at h ⊢
      rw [hF a b (Option.some.inj h)]

theorem applyTagWrites_view :
    ∀ (W : List TagWrite) (pg : List Node) (p : List Nat),
      (subAtList p (applyTagWrites pg W)).map nodeView =
        (subAtList p pg).map
          (fun n => (n.ntype, applyScalarChain n.ntype (scalarsOf n) (writeValuesAt p W))) := by
  intro W
  induction W with
  | nil =>
    intro pg p
    cases hs : subAtList p pg <;>
      simp [applyTagWrites, hs, nodeView, applyScalarChain, writeValuesAt]
  | cons w W ih =>
    intro pg p
    show (subAtList p (applyTagWrites (applyTagWrite pg w) W)).map nodeView = _
    rw [ih (applyTagWrite pg w) p]
    by_cases hpw : w.path = p
    · subst hpw
      show (subAtList w.path (modAtList (applyMappingValue w.value) w.path pg)).map _ = _
      rw [subAt_modAt_same]
      cases hs : subAtList w.path pg with
      | none => simp
      | some n =>
        simp only [Option.map]
        rw [ntype_applyMappingValue, scalars_applyMappingValue, writeValuesAt_cons_same]
        rfl
    · have hview : (subAtList p (applyTagWrite pg w)).map nodeView =
          (subAtList p pg).map nodeView :=
        nodeView_modAtList_other (applyMappingValue w.value)
          (children_applyMappingValue w.value) p w.path pg (fun he => hpw he.symm)
      rw [writeValuesAt_cons_other p w W hpw]
      refine map_view_congr _ _ hview _ ?_
      intro a b hab
      have h1 : a.ntype = b.ntype := congrArg Prod.fst hab
      have h2 : scalarsOf a = scalarsOf b := congrArg Prod.snd hab
      rw [h1, h2]

theorem skeletonList_applyTagWrites :
    ∀ (W : List TagWrite) (pg : List Node),
      skeletonList (applyTagWrites pg W) = skeletonList pg := by
  intro W
  induction W with
  | nil => intro pg; rfl
  | cons w W ih =>
    intro pg
    show skeletonList (applyTagWrites (applyTagWrite pg w) W) = _
    rw [ih]
    exact skeletonList_modAtList (applyMappingValue w.value)
      (fun n => skeleton_applyMappingValue w.value n) w.path pg

mutual

theorem node_ext_view :
    ∀ (a b : Node), skeleton a = skeleton b → scalarsOf a = scalarsOf b →
      (∀ p, (subAtInside p a).map nodeView = (subAtInside p b).map nodeView) → a = b
  | ⟨nm, nt, x, y, w, h, vis, pid, cid, chars, lt, ch⟩,
    ⟨nm₁, nt₁, x₁, y₁, w₁, h₁, vis₁, pid₁, cid₁, chars₁, lt₁, ch₁⟩, hsk, hsc, hsub => by
    simp only [skeleton, Skel.mk.injEq] at hsk
    simp only [scalarsOf, Prod.mk.injEq] at hsc
    obtain ⟨h1, h2, h3, h4, h5, h6, h7, h8, h9⟩ := hsk
    obtain ⟨hv, hc, hl⟩ := hsc
    have hch : ch = ch₁ := list_ext_view ch ch₁ h9 (fun p => hsub p)
    rw [Node.mk.injEq]
    exact ⟨h1, h2, h3, h4, h5, h6, hv, h7, h8, hc, hl, hch⟩

theorem list_ext_view :
    ∀ (as bs : List Node), skeletonList as = skeletonList bs →
      (∀ p, (subAtList p as).map nodeView = (subAtList p bs).map nodeView) → as = bs
  | [], [], _, _ => rfl
  | [], _ :: _, hsk, _ => by simp [skeletonList] at hsk
  | _ :: _, [], hsk, _ => by simp [skeletonList] at hsk
  | a :: as, b :: bs, hsk, hsub => by
    simp only [skeletonList, List.cons.injEq] at hsk
    have hab : nodeView a = nodeView b := by
      have h0 := hsub [0]
      rw [subAtList, subAtList] at h0
      simp only [Option.map] at h0
      exact Option.some.inj h0
    have hhd : a = b := by
      refine node_ext_view a b hsk.1 (congrArg Prod.snd hab) ?_
      intro p
      cases p with
      | nil =>
        rw [subAtInside_children, subAtInside_children, subAtList_nil_path, subAtList_nil_path]
      | cons r rs => exact hsub (0 :: r :: rs)
    have htl : as = bs := by
      refine list_ext_view as bs hsk.2 ?_
      intro p
      cases p with
      | nil => rw [subAtList_nil_path, subAtList_nil_path]
      | cons i ps => exact hsub (Nat.succ i :: ps)
    rw [hhd, htl]

end

theorem applyTagWrites_idem (W : List TagWrite) (pg : List Node) :
    applyTagWrites (applyTagWrites pg W) W = applyTagWrites pg W := by
  apply list_ext_view
  · simp only [skeletonList_applyTagWrites]
  · intro p
    rw [applyTagWrites_view W (applyTagWrites pg W) p, applyTagWrites_view W pg p]
    cases hs : subAtList p pg with
    | none =>
      have h0 := applyTagWrites_view W pg p
      rw [hs] at h0
      simp only [Option.map] at h0
      have hq : subAtList p (applyTagWrites pg W) = none := by
        cases hq₁ : subAtList p (applyTagWrites pg W) with
        | none => rfl
        | some m => rw [hq₁] at h0; simp at h0
      rw [hq]
    | some n =>
      have h0 := applyTagWrites_view W pg p
      rw [hs] at h0
      cases hq : subAtList p (applyTagWrites pg W) with
      | none => rw [hq] at h0; simp at h0
      | some m =>
        rw [hq] at h0
        simp only [Option.map] at h0
        obtain h0 := Option.some.inj h0
        simp only [Option.map]
        have hm1 : m.ntype = n.ntype := congrArg Prod.fst h0
        have hm2 : scalarsOf m = applyScalarChain n.ntype (scalarsOf n) (writeValuesAt p W) :=
          congrArg Prod.snd h0
        rw [hm1, hm2, applyScalarChain_idem]

/-! ### The Field Applier as a write plan -/

mutual

theorem findPathList_skeleton_congr (name : String) :
    ∀ (as bs : List Node), skeletonList as = skeletonList bs →
      findPathList name as = findPathList name bs
  | [], [], _ => rfl
  | [], _ :: _, hsk => by simp [skeletonList] at hsk
  | _ :: _, [], hsk => by simp [skeletonList] at hsk
  | a :: as, b :: bs, hsk => by
    simp only [skeletonList, List.cons.injEq] at hsk
    obtain ⟨hab, htl⟩ := hsk
    obtain ⟨hname, hntype, -⟩ := skeleton_eq_fields hab
    rw [findPathList, findPathList, hname, hntype,
      findPathInside_skeleton_congr name a b hab, findPathList_skeleton_congr name as bs htl]

theorem findPathInside_skeleton_congr (name : String) :
    ∀ (a b : Node), skeleton a = skeleton b → findPathInside name a = findPathInside name b
  | ⟨nm, nt, x, y, w, h, vis, pid, cid, chars, lt, ch⟩,
    ⟨nm₁, nt₁, x₁, y₁, w₁, h₁, vis₁, pid₁, cid₁, chars₁, lt₁, ch₁⟩, hsk => by
    simp only [skeleton, Skel.mk.injEq] at hsk
    rw [findPathInside, findPathInside]
    exact findPathList_skeleton_congr name ch ch₁ hsk.2.2.2.2.2.2.2.2

end

theorem nodeWrites_congr_children (r : RecordT) (ms : List FieldMapping) (a b : Node)
    (h : a.children = b.children) : nodeWrites a r ms = nodeWrites b r ms := by
  unfold nodeWrites
  congr 1
  funext m
  rw [findPathInside_children, findPathInside_children, h]

theorem nodeWrites_skeleton_congr (r : RecordT) (ms : List FieldMapping) (a b : Node)
    (h : skeleton a = skeleton b) : nodeWrites a r ms = nodeWrites b r ms := by
  unfold nodeWrites
  congr 1
  funext m
  rw [findPathInside_skeleton_congr m.layerName a b h]

theorem nodeWrites_path_ne_nil (r : RecordT) (ms : List FieldMapping) (n : Node) :
    ∀ w ∈ nodeWrites n r ms, w.path ≠ [] := by
  intro w hw
  unfold nodeWrites at hw
  obtain ⟨m, hm, hmw⟩ := List.mem_filterMap.mp hw
  cases hf : findPathInside m.layerName n with
  | none =>
    rw [hf] at hmw
    cases hp : presentValue r m.dataField <;> rw [hp] at hmw <;> exact absurd hmw (by simp)
  | some p =>
    cases hp : presentValue r m.dataField with
    | none => rw [hf, hp] at hmw; exact absurd hmw (by simp)
    | some v =>
      rw [hf, hp] at hmw
      obtain rfl := Option.some.inj hmw
      exact (findPathInside_valid m.layerName n p hf).1

theorem fillInstanceData_writes (r : RecordT) :
    ∀ (ms : List FieldMapping) (n : Node),
      fillInstanceData n r ms =
        { n with children := applyTagWrites n.children (nodeWrites n r ms) } := by
  intro ms
  induction ms with
  | nil =>
    intro n
    show n = _
    cases n
    rfl
  | cons m ms ih =>
    intro n
    show fillInstanceData (fillStep r n m) r ms = _
    rw [ih (fillStep r n m)]
    have hskel := skeleton_fillStep r n m
    cases hf : findPathInside m.layerName n with
    | none =>
      have hstep : fillStep r n m = n := by rw [fillStep, hf]
      have hw : nodeWrites n r (m :: ms) = nodeWrites n r ms := by
        unfold nodeWrites
        rw [List.filterMap_cons, hf]
      rw [hstep, hw]
    | some p =>
      cases hp : presentValue r m.dataField with
      | none =>
        have hstep : fillStep r n m = n := by rw [fillStep, hf, hp]
        have hw : nodeWrites n r (m :: ms) = nodeWrites n r ms := by
          unfold nodeWrites
          rw [List.filterMap_cons, hf, hp]
        rw [hstep, hw]
      | some v =>
        have hwcongr : nodeWrites (fillStep r n m) r ms = nodeWrites n r ms :=
          nodeWrites_skeleton_congr r ms _ n hskel
        have hw : nodeWrites n r (m :: ms) = ⟨p, v⟩ :: nodeWrites n r ms := by
          unfold nodeWrites
          rw [List.filterMap_cons, hf, hp]
        cases n with
        | mk nm nt x y w h vis pid cid chars lt ch =>
          have hstep : fillStep r ⟨nm, nt, x, y, w, h, vis, pid, cid, chars, lt, ch⟩ m =
              ⟨nm, nt, x, y, w, h, vis, pid, cid, chars, lt,
                modAtList (applyMappingValue v) p ch⟩ := by
            rw [fillStep, hf, hp]
          rw [hw, hwcongr, hstep]
          rfl

mutual

theorem modAtList_modAtList_same (f g : Node → Node) :
    ∀ (p : List Nat) (ns : List Node),
      modAtList (fun x => f (g x)) p ns = modAtList f p (modAtList g p ns)
  | _, [] => by rw [modAtList, modAtList, modAtList]
  | [], _ :: _ => by rw [modAtList_nil_path, modAtList_nil_path, modAtList_nil_path]
  | [0], c :: cs => by rw [modAtList, modAtList, modAtList]
  | 0 :: r :: rs, c :: cs => by
    rw [modAtList, modAtList, modAtList, modAtInside_modAtInside_same f g (r :: rs) c]
  | (Nat.succ i) :: p, c :: cs => by
    rw [modAtList, modAtList, modAtList, modAtList_modAtList_same f g (i :: p) cs]

theorem modAtInside_modAtInside_same (f g : Node → Node) :
    ∀ (p : List Nat) (n : Node),
      modAtInside (fun x => f (g x)) p n = modAtInside f p (modAtInside g p n)
  | p, ⟨nm, nt, x, y, w, h, vis, pid, cid, chars, lt, ch⟩ => by
    rw [modAtInside, modAtInside, modAtInside, modAtList_modAtList_same f g p ch]

end

theorem modAtList_childWrites :
    ∀ (ws : List TagWrite) (pth : List Nat) (page : List Node), pth ≠ [] →
      (∀ w ∈ ws, w.path ≠ []) →
      modAtList (fun x => { x with children := applyTagWrites x.children ws }) pth page =
        applyTagWrites page (ws.map (liftWrite pth)) := by
  intro ws
  induction ws with
  | nil =>
    intro pth page _ _
    have hfun : (fun x : Node => { x with children := applyTagWrites x.children [] }) =
        fun x : Node => x := by
      funext x
      cases x
      rfl
    rw [hfun, modAtList_id]
    rfl
  | cons w ws ih =>
    intro pth page hp hw
    have hfun : (fun x : Node => { x with children := applyTagWrites x.children (w :: ws) }) =
        fun x : Node =>
          (fun y : Node => { y with children := applyTagWrites y.children ws })
            ((fun y : Node => { y with children := applyTagWrite y.children w }) x) := by
      funext x
      cases x
      rfl
    rw [hfun,
      modAtList_modAtList_same
        (fun y : Node => { y with children := applyTagWrites y.children ws })
        (fun y : Node => { y with children := applyTagWrite y.children w })]
    have h1 : modAtList (fun y : Node => { y with children := applyTagWrite y.children w })
        pth page = applyTagWrite page (liftWrite pth w) := by
      show _ = modAtList (applyMappingValue w.value) (pth ++ w.path) page
      rw [modAtList_compose (applyMappingValue w.value) pth w.path page hp (hw w (by simp))]
      have hgg : (fun x : Node => modAtInside (applyMappingValue w.value) w.path x) =
          fun y : Node => { y with children := applyTagWrite y.children w } := by
        funext x
        cases x
        rfl
      rw [hgg]
    rw [h1]
    exact ih pth (applyTagWrite page (liftWrite pth w)) hp (fun w₁ hw₁ => hw w₁ (by simp [hw₁]))

theorem updateInstanceAt_writes (r : RecordT) (ms : List FieldMapping)
    (page : List Node) (pth : NodePath) :
    updateInstanceAt r ms page pth = applyTagWrites page (pathWrites page pth r ms) := by
  unfold updateInstanceAt pathWrites
  cases hs : subAtList pth page with
  | none =>
    rw [modAtList_invalid _ pth page hs]
    rfl
  | some n =>
    dsimp only
    by_cases hc : hasChildren n.ntype = true
    · rw [if_pos hc]
      have hupd : (fun x => updateInstance x r ms) n =
          (fun x : Node =>
            { x with children := applyTagWrites x.children (nodeWrites n r ms) }) n := by
        dsimp only
        rw [updateInstance, if_pos hc, fillInstanceData_writes]
      rw [modAtList_congr (fun x => updateInstance x r ms)
        (fun x : Node => { x with children := applyTagWrites x.children (nodeWrites n r ms) })
        pth page n hs hupd]
      have hpne : pth ≠ [] := by
        intro hnil
        rw [hnil, subAtList_nil_path] at hs
        exact absurd hs (by simp)
      exact modAtList_childWrites (nodeWrites n r ms) pth page hpne
        (nodeWrites_path_ne_nil r ms n)
    · rw [if_neg hc]
      have hupd : (fun x => updateInstance x r ms) n = n := by
        dsimp only
        rw [updateInstance, if_neg hc]
      rw [modAtList_fix (fun x => updateInstance x r ms) pth page n hs hupd]
      rfl

/-! ### Tagged paths: structure, congruence, validity -/

theorem taggedPathsList_append (k : String) (path : NodePath) :
    ∀ (as bs : List Node) (i : Nat),
      taggedPathsList k path i (as ++ bs) =
        taggedPathsList k path i as ++ taggedPathsList k path (i + as.length) bs := by
  intro as
  induction as with
  | nil => intro bs i; simp [taggedPathsList]
  | cons c cs ih =>
    intro bs i
    rw [List.cons_append, taggedPathsList, ih bs (i + 1)]
    rw [taggedPathsList, List.append_assoc]
    have harith : i + 1 + cs.length = i + (c :: cs).length := by
      simp only [List.length_cons]
      omega
    rw [harith]

mutual

theorem taggedPathsList_skeleton_congr (k : String) :
    ∀ (as bs : List Node), skeletonList as = skeletonList bs →
      ∀ (path : NodePath) (i : Nat), taggedPathsList k path i as = taggedPathsList k path i bs
  | [], [], _ => fun _ _ => rfl
  | [], _ :: _, hsk => by simp [skeletonList] at hsk
  | _ :: _, [], hsk => by simp [skeletonList] at hsk
  | a :: as, b :: bs, hsk => by
    intro path i
    simp only [skeletonList, List.cons.injEq] at hsk
    rw [taggedPathsList, taggedPathsList,
      taggedPathsNode_skeleton_congr k a b hsk.1 (path ++ [i]),
      taggedPathsList_skeleton_congr k as bs hsk.2 path (i + 1)]

theorem taggedPathsNode_skeleton_congr (k : String) :
    ∀ (a b : Node), skeleton a = skeleton b →
      ∀ (path : NodePath), taggedPathsNode k path a = taggedPathsNode k path b
  | ⟨nm, nt, x, y, w, h, vis, pid, cid, chars, lt, ch⟩,
    ⟨nm₁, nt₁, x₁, y₁, w₁, h₁, vis₁, pid₁, cid₁, chars₁, lt₁, ch₁⟩, hsk => by
    intro path
    simp only [skeleton, Skel.mk.injEq] at hsk
    obtain ⟨-, hnt, -, -, -, -, hpid, -, hch⟩ := hsk
    rw [taggedPathsNode, taggedPathsNode, hpid, hnt,
      taggedPathsList_skeleton_congr k ch ch₁ hch path 0]

end

mutual

theorem taggedPathsList_sub (k : String) :
    ∀ (ns : List Node) (path : NodePath) (i : Nat) (pth : NodePath),
      pth ∈ taggedPathsList k path i ns →
      ∃ (j : Nat) (q : List Nat) (n : Node), pth = path ++ (i + j) :: q ∧
        subAtList (j :: q) ns = some n ∧ n.pluginId = k
  | [], path, i, pth, h => by rw [taggedPathsList] at h; exact absurd h (by simp)
  | c :: cs, path, i, pth, h => by
    rw [taggedPathsList] at h
    rcases List.mem_append.mp h with hnode | htail
    · rcases taggedPathsNode_sub k c (path ++ [i]) pth hnode with
        ⟨rfl, hpid⟩ | ⟨q, m, hq, rfl, hsub, hpid⟩
      · exact ⟨0, [], c, by simp, by rw [subAtList], hpid⟩
      · obtain ⟨r, rs, rfl⟩ := List.exists_cons_of_ne_nil hq
        refine ⟨0, r :: rs, m, by simp, ?_, hpid⟩
        rw [subAtList]
        exact hsub
    · obtain ⟨j, q, n, hpth, hsub, hpid⟩ := taggedPathsList_sub k cs path (i + 1) pth htail
      refine ⟨j + 1, q, n, ?_, ?_, hpid⟩
      · rw [hpth]
        have : i + 1 + j = i + (j + 1) := by omega
        rw [this]
      · rw [subAtList]
        exact hsub

theorem taggedPathsNode_sub (k : String) :
    ∀ (n : Node) (path : NodePath) (pth : NodePath), pth ∈ taggedPathsNode k path n →
      (pth = path ∧ n.pluginId = k) ∨
      (∃ (q : List Nat) (m : Node), q ≠ [] ∧ pth = path ++ q ∧ subAtInside q n = some m ∧
        m.pluginId = k)
  | ⟨nm, nt, x, y, w, h, vis, pid, cid, chars, lt, ch⟩, path, pth, hmem => by
    rw [taggedPathsNode] at hmem
    rcases List.mem_append.mp hmem with hroot | hchild
    · by_cases hguard : pid ≠ "" ∧ pid = k
      · rw [if_pos hguard] at hroot
        simp only [List.mem_singleton] at hroot
        exact Or.inl ⟨hroot, hguard.2⟩
      · rw [if_neg hguard] at hroot
        exact absurd hroot (by simp)
    · by_cases hc : hasChildren nt = true
      · rw [if_pos hc] at hchild
        obtain ⟨j, q, m, hpth, hsub, hpid⟩ := taggedPathsList_sub k ch path 0 pth hchild
        refine Or.inr ⟨(0 + j) :: q, m, by simp, hpth, ?_, hpid⟩
        rw [subAtInside]
        simpa using hsub
      · rw [if_neg hc] at hchild
        exact absurd hchild (by simp)

end

theorem taggedPaths_sub (pg : List Node) (k : String) (pth : NodePath)
    (h : pth ∈ taggedPaths pg k) :
    ∃ n, subAtList pth pg = some n ∧ n.pluginId = k := by
  obtain ⟨j, q, n, hpth, hsub, hpid⟩ := taggedPathsList_sub k pg [] 0 pth h
  rw [hpth]
  simp only [List.nil_append, Nat.zero_add]
  exact ⟨n, hsub, hpid⟩

mutual

theorem taggedPathsList_untagged (k : String) :
    ∀ (ns : List Node), untaggedList ns = true →
      ∀ (path : NodePath) (i : Nat), taggedPathsList k path i ns = []
  | [], _ => fun _ _ => rfl
  | c :: cs, h => by
    intro path i
    rw [untaggedList] at h
    simp only [Bool.and_eq_true] at h
    rw [taggedPathsList, taggedPathsNode_untagged k c h.1 (path ++ [i]),
      taggedPathsList_untagged k cs h.2 path (i + 1)]
    rfl

theorem taggedPathsNode_untagged (k : String) :
    ∀ (n : Node), untaggedNode n = true → ∀ (path : NodePath), taggedPathsNode k path n = []
  | ⟨nm, nt, x, y, w, h, vis, pid, cid, chars, lt, ch⟩, hu => by
    intro path
    rw [untaggedNode] at hu
    simp only [Bool.and_eq_true, decide_eq_true_eq] at hu
    obtain ⟨hpid0, hrest⟩ := hu
    rw [taggedPathsNode]
    have hpid : ¬(pid ≠ "" ∧ pid = k) := fun hcon => hcon.1 hpid0
    rw [if_neg hpid]
    by_cases hc : hasChildren nt = true
    · rw [if_pos hc] at hrest
      rw [if_pos hc, taggedPathsList_untagged k ch hrest path 0]
      rfl
    · rw [if_neg hc]
      rfl

end

/-! ### Record keys are nonempty strings -/

theorem toDigitsCore_length_le (b : Nat) :
    ∀ (fuel n : Nat) (ds : List Char), ds.length ≤ (Nat.toDigitsCore b fuel n ds).length := by
  intro fuel
  induction fuel with
  | zero => intro n ds; rw [Nat.toDigitsCore]
  | succ fuel ih =>
    intro n ds
    rw [Nat.toDigitsCore]
    split_ifs with h
    · simp
    · calc ds.length ≤ (Nat.digitChar (n % b) :: ds).length := by simp
        _ ≤ _ := ih (n / b) (Nat.digitChar (n % b) :: ds)

theorem toDigits_ne_nil (b n : Nat) : Nat.toDigits b n ≠ [] := by
  unfold Nat.toDigits
  intro hnil
  have h1 : (0 : Nat) < (Nat.toDigitsCore b (n + 1) n []).length := by
    rw [Nat.toDigitsCore]
    split_ifs with h
    · simp
    · calc (0 : Nat) < (Nat.digitChar (n % b) :: []).length := by simp
        _ ≤ _ := toDigitsCore_length_le b n (n / b) (Nat.digitChar (n % b) :: [])
  rw [hnil] at h1
  simp at h1

theorem nat_repr_ne_empty (n : Nat) : Nat.repr n ≠ "" := by
  intro h
  have h2 : Nat.toDigits 10 n = ([] : List Char) := congrArg String.data h
  exact toDigits_ne_nil 10 n h2

theorem int_toString_ne_empty (n : Int) : toString n ≠ "" := by
  cases n with
  | ofNat m => exact nat_repr_ne_empty m
  | negSucc m =>
    intro h
    have h2 : ('-' :: (Nat.repr (m + 1)).data) = ([] : List Char) := congrArg String.data h
    exact absurd h2 (by simp)

theorem row_key_ne_empty (i : Nat) : ("row-" ++ toString i) ≠ ("" : String) := by
  intro h
  have h2 : ('r' :: 'o' :: 'w' :: '-' :: (toString i).data) = ([] : List Char) :=
    congrArg String.data h
  exact absurd h2 (by simp)

theorem valueToString_ne_empty (v : Value) (h : jsFalsy v = false) : valueToString v ≠ "" := by
  cases v with
  | str s =>
    unfold jsFalsy at h
    unfold valueToString
    simpa using h
  | num n => exact int_toString_ne_empty n
  | bool b =>
    cases b with
    | true => decide
    | false => simp [jsFalsy] at h
  | null => simp [jsFalsy] at h

theorem recordKey_ne_empty (r : RecordT) (idF : String) (i : Nat) : recordKey r idF i ≠ "" := by
  unfold recordKey
  cases hl : List.lookup idF r with
  | none => exact row_key_ne_empty i
  | some v =>
    dsimp only
    by_cases hf : jsFalsy v = true
    · rw [if_pos hf]
      exact row_key_ne_empty i
    · rw [if_neg hf]
      exact valueToString_ne_empty v (by simpa using hf)

theorem keyList_mem_ne_empty (idF : String) :
    ∀ (ds : List RecordT) (i : Nat) (k : String), k ∈ keyList idF i ds → k ≠ "" := by
  intro ds
  induction ds with
  | nil => intro i k h; simp [keyList] at h
  | cons r rs ih =>
    intro i k h
    rw [keyList] at h
    rcases List.mem_cons.mp h with rfl | hmem
    · exact recordKey_ne_empty r idF i
    · exact ih (i + 1) k hmem

/-! ### Association-list lookups -/

theorem lookup_mem_entry {β : Type} (k : String) :
    ∀ (l : List (String × β)) (v : β), List.lookup k l = some v → (k, v) ∈ l
  | [], v, h => by simp [List.lookup] at h
  | (k₁, v₁) :: rest, v, h => by
    rw [List.lookup] at h
    cases hbeq : (k == k₁) with
    | true =>
      rw [hbeq] at h
      obtain rfl := Option.some.inj h
      have hk : k = k₁ := by simpa using hbeq
      rw [hk]
      exact List.mem_cons_self _ _
    | false =>
      rw [hbeq] at h
      exact List.mem_cons_of_mem _ (lookup_mem_entry k rest v h)

theorem lookup_eq_none_of_keys {β : Type} (k : String) :
    ∀ l : List (String × β), (∀ e ∈ l, e.1 ≠ k) → List.lookup k l = none
  | [], _ => rfl
  | (k₁, v₁) :: rest, h => by
    rw [List.lookup]
    have hbeq : (k == k₁) = false := by
      have h1 := h (k₁, v₁) (by simp)
      simp only [beq_eq_false_iff_ne, ne_eq]
      exact fun he => h1 (by rw [he])
    rw [hbeq]
    exact lookup_eq_none_of_keys k rest (fun e he => h e (by simp [he]))

/-! ### Missed keys and the clones of one pass -/

theorem missKeyPaths_keys_sublist (pg : List Node) (idF : String) (L : Nat) :
    ∀ (ds : List RecordT) (i idx : Nat),
      List.Sublist ((missKeyPaths pg idF L i idx ds).map Prod.fst) (keyList idF i ds) := by
  intro ds
  induction ds with
  | nil => intro i idx; simp [missKeyPaths, keyList]
  | cons r rs ih =>
    intro i idx
    rw [keyList]
    cases hl : List.lookup (recordKey r idF i) (buildExistingMap pg) with
    | none =>
      simp only [missKeyPaths, hl, List.map_cons]
      exact List.Sublist.cons₂ _ (ih (i + 1) (idx + 1))
    | some l =>
      cases l with
      | nil =>
        simp only [missKeyPaths, hl, List.map_cons]
        exact List.Sublist.cons₂ _ (ih (i + 1) (idx + 1))
      | cons p ps =>
        simp only [missKeyPaths, hl]
        exact List.Sublist.cons _ (ih (i + 1) idx)

theorem missKeyPaths_miss (pg : List Node) (idF : String) (L : Nat) :
    ∀ (ds : List RecordT) (i idx : Nat) (k : String) (p : NodePath),
      (k, p) ∈ missKeyPaths pg idF L i idx ds → taggedPaths pg k = [] ∧ k ≠ "" := by
  intro ds
  induction ds with
  | nil => intro i idx k p h; simp [missKeyPaths] at h
  | cons r rs ih =>
    intro i idx k p h
    cases hl : List.lookup (recordKey r idF i) (buildExistingMap pg) with
    | none =>
      simp only [missKeyPaths, hl, List.mem_cons] at h
      rcases h with heq | hmem
      · have hk : k = recordKey r idF i := congrArg Prod.fst heq
        subst hk
        constructor
        · have hb := lookup_buildExistingMap pg (recordKey r idF i)
          rw [hl] at hb
          by_cases htp : taggedPaths pg (recordKey r idF i) = []
          · exact htp
          · rw [if_neg htp] at hb
            exact absurd hb (by simp)
        · exact recordKey_ne_empty r idF i
      · exact ih (i + 1) (idx + 1) k p hmem
    | some l =>
      cases l with
      | nil =>
        exfalso
        have hb := lookup_buildExistingMap pg (recordKey r idF i)
        rw [hl] at hb
        by_cases htp : taggedPaths pg (recordKey r idF i) = []
        · rw [if_pos htp] at hb
          exact absurd hb (by simp)
        · rw [if_neg htp] at hb
          obtain hb := Option.some.inj hb
          exact htp hb.symm
      | cons p₁ ps₁ =>
        simp only [missKeyPaths, hl] at h
        exact ih (i + 1) idx k p h

theorem clonedNode_tagged (templ : Node) (idF cid : String) (sY cw chh : Int)
    (i idx : Nat) (r : RecordT) (huntag : untaggedList templ.children = true)
    (k : String) (path : NodePath) :
    taggedPathsNode k path (clonedNode templ idF cid sY cw chh i idx r) =
      if recordKey r idF i = k then [path] else [] := by
  cases templ with
  | mk nm nt x y w h vis pid cid₁ chars lt chl =>
    have hcl : clonedNode ⟨nm, nt, x, y, w, h, vis, pid, cid₁, chars, lt, chl⟩ idF cid
        sY cw chh i idx r =
        ⟨nm, nt, gridX cw idx, gridY sY chh idx, w, h, vis, recordKey r idF i, cid, chars, lt,
          chl⟩ := rfl
    rw [hcl, taggedPathsNode, taggedPathsList_untagged k chl huntag path 0]
    by_cases hk : recordKey r idF i = k
    · rw [if_pos hk, if_pos ⟨recordKey_ne_empty r idF i, hk⟩]
      simp
    · rw [if_neg (fun hcon => hk hcon.2), if_neg hk]
      simp

theorem taggedPaths_passClones (pg : List Node) (templ : Node) (idF cid : String)
    (sY cw chh : Int) (L : Nat) (huntag : untaggedList templ.children = true) :
    ∀ (ds : List RecordT) (i idx : Nat) (k : String),
      ((missKeyPaths pg idF L i idx ds).map Prod.fst).Nodup →
      taggedPathsList k [] (L + idx) (passClones pg templ idF cid sY cw chh i idx ds) =
        (List.lookup k (missKeyPaths pg idF L i idx ds)).toList := by
  intro ds
  induction ds with
  | nil => intro i idx k hnd; rfl
  | cons r rs ih =>
    intro i idx k hnd
    cases hl : List.lookup (recordKey r idF i) (buildExistingMap pg) with
    | some l =>
      cases l with
      | cons p₁ ps₁ =>
        have hpc : passClones pg templ idF cid sY cw chh i idx (r :: rs) =
            passClones pg templ idF cid sY cw chh (i + 1) idx rs := by
          rw [passClones, hl]
        have hmk : missKeyPaths pg idF L i idx (r :: rs) =
            missKeyPaths pg idF L (i + 1) idx rs := by
          rw [missKeyPaths, hl]
        rw [hpc, hmk]
        rw [hmk] at hnd
        exact ih (i + 1) idx k hnd
      | nil =>
        have hpc : passClones pg templ idF cid sY cw chh i idx (r :: rs) =
            clonedNode templ idF cid sY cw chh i idx r ::
              passClones pg templ idF cid sY cw chh (i + 1) (idx + 1) rs := by
          rw [passClones, hl]
        have hmk : missKeyPaths pg idF L i idx (r :: rs) =
            (recordKey r idF i, [L + idx]) :: missKeyPaths pg idF L (i + 1) (idx + 1) rs := by
          rw [missKeyPaths, hl]
        rw [hpc, hmk]
        rw [hmk] at hnd
        simp only [List.map_cons, List.nodup_cons] at hnd
        obtain ⟨hknotin, hnd₁⟩ := hnd
        rw [taggedPathsList, clonedNode_tagged templ idF cid sY cw chh i idx r huntag k
          ([] ++ [L + idx])]
        simp only [Nat.add_assoc]
        rw [ih (i + 1) (idx + 1) k hnd₁]
        rw [List.lookup]
        by_cases hk : recordKey r idF i = k
        · have hbeq : (k == recordKey r idF i) = true := by simp [hk]
          rw [if_pos hk, hbeq]
          have hnone : List.lookup k (missKeyPaths pg idF L (i + 1) (idx + 1) rs) = none := by
            refine lookup_eq_none_of_keys k _ (fun e he => ?_)
            intro hek
            apply hknotin
            rw [hk, ← hek]
            exact List.mem_map_of_mem Prod.fst he
          rw [hnone]
          simp
        · have hbeq : (k == recordKey r idF i) = false := by
            simp only [beq_eq_false_iff_ne, ne_eq]
            exact fun he => hk he.symm
          rw [if_neg hk, hbeq]
          simp
    | none =>
      have hpc : passClones pg templ idF cid sY cw chh i idx (r :: rs) =
          clonedNode templ idF cid sY cw chh i idx r ::
            passClones pg templ idF cid sY cw chh (i + 1) (idx + 1) rs := by
        rw [passClones, hl]
      have hmk : missKeyPaths pg idF L i idx (r :: rs) =
          (recordKey r idF i, [L + idx]) :: missKeyPaths pg idF L (i + 1) (idx + 1) rs := by
        rw [missKeyPaths, hl]
      rw [hpc, hmk]
      rw [hmk] at hnd
      simp only [List.map_cons, List.nodup_cons] at hnd
      obtain ⟨hknotin, hnd₁⟩ := hnd
      rw [taggedPathsList, clonedNode_tagged templ idF cid sY cw chh i idx r huntag k
        ([] ++ [L + idx])]
      simp only [Nat.add_assoc]
      rw [ih (i + 1) (idx + 1) k hnd₁]
      rw [List.lookup]
      by_cases hk : recordKey r idF i = k
      · have hbeq : (k == recordKey r idF i) = true := by simp [hk]
        rw [if_pos hk, hbeq]
        have hnone : List.lookup k (missKeyPaths pg idF L (i + 1) (idx + 1) rs) = none := by
          refine lookup_eq_none_of_keys k _ (fun e he => ?_)
          intro hek
          apply hknotin
          rw [hk, ← hek]
          exact List.mem_map_of_mem Prod.fst he
        rw [hnone]
        simp
      · have hbeq : (k == recordKey r idF i) = false := by
          simp only [beq_eq_false_iff_ne, ne_eq]
          exact fun he => hk he.symm
        rw [if_neg hk, hbeq]
        simp

theorem hitTotal_eq_tagCountSum (pg : List Node) (idF : String) :
    ∀ (ds : List RecordT) (i : Nat),
      hitTotal (buildExistingMap pg) idF i ds = tagCountSum pg idF i ds := by
  intro ds
  induction ds with
  | nil => intro i; rfl
  | cons r rs ih =>
    intro i
    rw [hitTotal, tagCountSum, ih (i + 1)]
    congr 1
    rw [lookup_buildExistingMap]
    by_cases h : taggedPaths pg (recordKey r idF i) = []
    · rw [if_pos h, h]
      rfl
    · rw [if_neg h]
      obtain ⟨p, ps, hcons⟩ := List.exists_cons_of_ne_nil h
      rw [hcons]

/-! ### The sync loop as a clone run and a write run -/

theorem applyTagWrites_concat (pg : List Node) (A B : List TagWrite) :
    applyTagWrites pg (A ++ B) = applyTagWrites (applyTagWrites pg A) B := by
  unfold applyTagWrites
  rw [List.foldl_append]

theorem applyTagWrites_length (W : List TagWrite) :
    ∀ pg : List Node, (applyTagWrites pg W).length = pg.length := by
  induction W with
  | nil => intro pg; rfl
  | cons w W ih =>
    intro pg
    show (applyTagWrites (applyTagWrite pg w) W).length = _
    rw [ih]
    exact modAtList_length _ w.path pg

theorem applyTagWrites_append_nodes (xs : List Node) :
    ∀ (W : List TagWrite) (ns : List Node), (∀ w ∈ W, headLt w.path ns.length) →
      applyTagWrites (ns ++ xs) W = applyTagWrites ns W ++ xs := by
  intro W
  induction W with
  | nil => intro ns _; rfl
  | cons w W ih =>
    intro ns hW
    show applyTagWrites (applyTagWrite (ns ++ xs) w) W =
      applyTagWrites (applyTagWrite ns w) W ++ xs
    have h1 : applyTagWrite (ns ++ xs) w = applyTagWrite ns w ++ xs :=
      modAtList_append_left _ xs w.path ns (hW w (by simp))
    rw [h1]
    refine ih (applyTagWrite ns w) (fun w₁ hw₁ => ?_)
    have hbound := hW w₁ (by simp [hw₁])
    have hlen : (applyTagWrite ns w).length = ns.length := modAtList_length _ w.path ns
    rw [hlen]
    exact hbound

theorem applyTagWrites_lift_last :
    ∀ (ws : List TagWrite) (pg : List Node) (x : Node), (∀ w ∈ ws, w.path ≠ []) →
      applyTagWrites (pg ++ [x]) (ws.map (liftWrite [pg.length])) =
        pg ++ [{ x with children := applyTagWrites x.children ws }] := by
  intro ws
  induction ws with
  | nil =>
    intro pg x _
    show pg ++ [x] = _
    cases x
    rfl
  | cons w ws ih =>
    intro pg x hw
    show applyTagWrites (applyTagWrite (pg ++ [x]) (liftWrite [pg.length] w))
      (ws.map (liftWrite [pg.length])) = _
    have h1 : applyTagWrite (pg ++ [x]) (liftWrite [pg.length] w) =
        pg ++ [{ x with children := applyTagWrite x.children w }] := by
      obtain ⟨r, rs, hpath⟩ := List.exists_cons_of_ne_nil (hw w (by simp))
      have hlift : liftWrite [pg.length] w = ⟨pg.length :: r :: rs, w.value⟩ := by
        simp [liftWrite, hpath]
      rw [hlift]
      show modAtList (applyMappingValue w.value) (pg.length :: r :: rs) (pg ++ [x]) = _
      rw [modAtList_append_exact, modAtInside_children]
      rw [show applyTagWrite x.children w =
        modAtList (applyMappingValue w.value) w.path x.children from rfl, hpath]
    rw [h1, ih pg { x with children := applyTagWrite x.children w }
      (fun w₁ h₁ => hw w₁ (by simp [h₁]))]
    cases x
    rfl

theorem pathWrites_congr (page base : List Node) (pth : NodePath) (r : RecordT)
    (ms : List FieldMapping)
    (h : (subAtList pth page).map skeleton = (subAtList pth base).map skeleton) :
    pathWrites page pth r ms = pathWrites base pth r ms := by
  unfold pathWrites
  cases hs : subAtList pth page with
  | none =>
    rw [hs] at h
    cases hb : subAtList pth base with
    | none => rfl
    | some nb => rw [hb] at h; simp at h
  | some n =>
    rw [hs] at h
    cases hb : subAtList pth base with
    | none => rw [hb] at h; simp at h
    | some nb =>
      rw [hb] at h
      simp only [Option.map] at h
      obtain hsk := Option.some.inj h
      dsimp only
      have hnt := (skeleton_eq_fields hsk).2.1
      rw [hnt, nodeWrites_skeleton_congr r ms n nb hsk]

theorem pathWrites_path_shape (page : List Node) (pth : NodePath) (r : RecordT)
    (ms : List FieldMapping) :
    ∀ w ∈ pathWrites page pth r ms, ∃ q, w.path = pth ++ q := by
  intro w hw
  unfold pathWrites at hw
  cases hs : subAtList pth page with
  | none => rw [hs] at hw; simp at hw
  | some n =>
    rw [hs] at hw
    dsimp only at hw
    by_cases hc : hasChildren n.ntype = true
    · rw [if_pos hc] at hw
      obtain ⟨w₀, hw₀, rfl⟩ := List.mem_map.mp hw
      exact ⟨w₀.path, rfl⟩
    · rw [if_neg hc] at hw
      simp at hw

theorem updateFold_writes (pg₀ : List Node) (r : RecordT) (ms : List FieldMapping)
    (cl : List Node) :
    ∀ (paths : List NodePath) (V : List TagWrite),
      (∀ pth ∈ paths, (subAtList pth pg₀).isSome = true) →
      paths.foldl (updateInstanceAt r ms) (applyTagWrites (pg₀ ++ cl) V) =
        applyTagWrites (pg₀ ++ cl) (V ++ paths.flatMap (fun pth => pathWrites pg₀ pth r ms)) := by
  intro paths
  induction paths with
  | nil => intro V _; simp
  | cons pth paths ih =>
    intro V hval
    rw [List.foldl_cons]
    have hstep : updateInstanceAt r ms (applyTagWrites (pg₀ ++ cl) V) pth =
        applyTagWrites (pg₀ ++ cl) (V ++ pathWrites pg₀ pth r ms) := by
      rw [updateInstanceAt_writes]
      have hcongr : pathWrites (applyTagWrites (pg₀ ++ cl) V) pth r ms =
          pathWrites pg₀ pth r ms := by
        refine pathWrites_congr _ _ pth r ms ?_
        have h1 : (subAtList pth (applyTagWrites (pg₀ ++ cl) V)).map skeleton =
            (subAtList pth (pg₀ ++ cl)).map skeleton :=
          subAtList_skeleton_congr pth _ _ (skeletonList_applyTagWrites V (pg₀ ++ cl))
        obtain ⟨n, hn⟩ := Option.isSome_iff_exists.mp (hval pth (by simp))
        rw [hn]
        rw [subAtList_append cl pth pg₀ n hn] at h1
        exact h1
      rw [hcongr, applyTagWrites_concat]
    rw [hstep, ih (V ++ pathWrites pg₀ pth r ms) (fun p hp => hval p (by simp [hp])),
      List.flatMap_cons, List.append_assoc]

theorem syncLoop_page_writes (pg₀ : List Node) (templ : Node) (ms : List FieldMapping)
    (idF cid : String) (sY cw chh : Int) :
    ∀ (ds : List RecordT) (i : Nat) (cl : List Node) (V : List TagWrite) (u c : Nat),
      (∀ w ∈ V, headLt w.path (pg₀.length + cl.length)) →
      (syncLoop templ ms idF cid (buildExistingMap pg₀) sY cw chh i ds
          ⟨applyTagWrites (pg₀ ++ cl) V, cl.length, u, c⟩).page =
        applyTagWrites
          (pg₀ ++ (cl ++ passClones pg₀ templ idF cid sY cw chh i cl.length ds))
          (V ++ passWrites pg₀ templ ms idF pg₀.length i cl.length ds) := by
  intro ds
  induction ds with
  | nil =>
    intro i cl V u c hV
    show applyTagWrites (pg₀ ++ cl) V = _
    rw [show passClones pg₀ templ idF cid sY cw chh i cl.length [] = [] from rfl,
      show passWrites pg₀ templ ms idF pg₀.length i cl.length [] = [] from rfl,
      List.append_nil, List.append_nil]
  | cons r rs ih =>
    intro i cl V u c hV
    rw [syncLoop]
    have hsplit : (∃ p ps, List.lookup (recordKey r idF i) (buildExistingMap pg₀) =
        some (p :: ps)) ∨
        (List.lookup (recordKey r idF i) (buildExistingMap pg₀) = none ∨
          List.lookup (recordKey r idF i) (buildExistingMap pg₀) = some []) := by
      cases List.lookup (recordKey r idF i) (buildExistingMap pg₀) with
      | none => exact Or.inr (Or.inl rfl)
      | some l =>
        cases l with
        | nil => exact Or.inr (Or.inr rfl)
        | cons p ps => exact Or.inl ⟨p, ps, rfl⟩
    rcases hsplit with ⟨p, ps, hl⟩ | hl
    · -- hit: every element of the entry is updated in place
      rw [processRecord_hit templ ms idF cid (buildExistingMap pg₀) sY cw chh i r
        ⟨applyTagWrites (pg₀ ++ cl) V, cl.length, u, c⟩ p ps hl]
      dsimp only
      have hb := lookup_buildExistingMap pg₀ (recordKey r idF i)
      rw [hl] at hb
      have htp : taggedPaths pg₀ (recordKey r idF i) = p :: ps := by
        by_cases htp0 : taggedPaths pg₀ (recordKey r idF i) = []
        · rw [if_pos htp0] at hb
          exact absurd hb (by simp)
        · rw [if_neg htp0] at hb
          exact (Option.some.inj hb).symm
      have hval : ∀ pth ∈ (p :: ps), (subAtList pth pg₀).isSome = true := by
        intro pth hpth
        obtain ⟨n, hn, -⟩ := taggedPaths_sub pg₀ (recordKey r idF i) pth
          (by rw [htp]; exact hpth)
        rw [hn]
        rfl
      rw [updateFold_writes pg₀ r ms cl (p :: ps) V hval]
      have hV₁ : ∀ w ∈ V ++ (p :: ps).flatMap (fun pth => pathWrites pg₀ pth r ms),
          headLt w.path (pg₀.length + cl.length) := by
        intro w hw
        rcases List.mem_append.mp hw with h1 | h2
        · exact hV w h1
        · obtain ⟨pth, hpth, hwp⟩ := List.mem_flatMap.mp h2
          obtain ⟨q, hq⟩ := pathWrites_path_shape pg₀ pth r ms w hwp
          obtain ⟨n, hn, -⟩ := taggedPaths_sub pg₀ (recordKey r idF i) pth
            (by rw [htp]; exact hpth)
          cases hpc : pth with
          | nil =>
            rw [hpc, subAtList_nil_path] at hn
            exact absurd hn (by simp)
          | cons j q₁ =>
            rw [hpc] at hq hn
            have hj := subAtList_head_lt j q₁ pg₀ n hn
            rw [hq]
            show j < pg₀.length + cl.length
            omega
      rw [ih (i + 1) cl (V ++ (p :: ps).flatMap fun pth => pathWrites pg₀ pth r ms)
        (u + (p :: ps).length) c hV₁]
      have hpc : passClones pg₀ templ idF cid sY cw chh i cl.length (r :: rs) =
          passClones pg₀ templ idF cid sY cw chh (i + 1) cl.length rs := by
        rw [passClones, hl]
      have hpw : passWrites pg₀ templ ms idF pg₀.length i cl.length (r :: rs) =
          (p :: ps).flatMap (fun p₁ => pathWrites pg₀ p₁ r ms) ++
            passWrites pg₀ templ ms idF pg₀.length (i + 1) cl.length rs := by
        rw [passWrites, hl]
      rw [hpc, hpw, List.append_assoc]
    · -- miss: a fresh placed clone is appended and filled
      rw [processRecord_miss templ ms idF cid (buildExistingMap pg₀) sY cw chh i r
        ⟨applyTagWrites (pg₀ ++ cl) V, cl.length, u, c⟩ hl]
      dsimp only
      have hins : applyTagWrites (pg₀ ++ cl) V ++
          [insertedNode templ ms idF cid sY cw chh i cl.length r] =
          applyTagWrites (pg₀ ++ (cl ++ [clonedNode templ idF cid sY cw chh i cl.length r]))
            (V ++ (nodeWrites templ r ms).map (liftWrite [pg₀.length + cl.length])) := by
        rw [← List.append_assoc, applyTagWrites_concat]
        rw [applyTagWrites_append_nodes [clonedNode templ idF cid sY cw chh i cl.length r]
          V (pg₀ ++ cl) (fun w hw => by rw [List.length_append]; exact hV w hw)]
        have hlen : (applyTagWrites (pg₀ ++ cl) V).length = pg₀.length + cl.length := by
          rw [applyTagWrites_length, List.length_append]
        rw [← hlen, applyTagWrites_lift_last (nodeWrites templ r ms) _ _
          (nodeWrites_path_ne_nil r ms templ)]
        congr 1
        rw [show insertedNode templ ms idF cid sY cw chh i cl.length r =
          fillInstanceData (clonedNode templ idF cid sY cw chh i cl.length r) r ms from rfl]
        rw [fillInstanceData_writes]
        rw [nodeWrites_congr_children r ms (clonedNode templ idF cid sY cw chh i cl.length r)
          templ (by cases templ; rfl)]
      rw [hins]
      have hV₂ : ∀ w ∈ V ++ (nodeWrites templ r ms).map (liftWrite [pg₀.length + cl.length]),
          headLt w.path (pg₀.length +
            (cl ++ [clonedNode templ idF cid sY cw chh i cl.length r]).length) := by
        intro w hw
        rcases List.mem_append.mp hw with h1 | h2
        · have := hV w h1
          simp only [List.length_append, List.length_cons, List.length_nil]
          cases hp : w.path with
          | nil => exact trivial
          | cons j q =>
            rw [hp] at this
            show j < pg₀.length + (cl.length + (0 + 1))
            have : j < pg₀.length + cl.length := this
            omega
        · obtain ⟨w₀, hw₀, rfl⟩ := List.mem_map.mp h2
          show pg₀.length + cl.length <
            pg₀.length + (cl ++ [clonedNode templ idF cid sY cw chh i cl.length r]).length
          simp only [List.length_append, List.length_cons, List.length_nil]
          omega
      have ihapp := ih (i + 1) (cl ++ [clonedNode templ idF cid sY cw chh i cl.length r])
        (V ++ (nodeWrites templ r ms).map (liftWrite [pg₀.length + cl.length])) u (c + 1) hV₂
      simp only [List.length_append, List.length_cons, List.length_nil, Nat.add_zero] at ihapp
      rw [ihapp]
      have hpc : passClones pg₀ templ idF cid sY cw chh i cl.length (r :: rs) =
          clonedNode templ idF cid sY cw chh i cl.length r ::
            passClones pg₀ templ idF cid sY cw chh (i + 1) (cl.length + 1) rs := by
        rcases hl with hl | hl <;> rw [passClones, hl]
      have hpw : passWrites pg₀ templ ms idF pg₀.length i cl.length (r :: rs) =
          (nodeWrites templ r ms).map (liftWrite [pg₀.length + cl.length]) ++
            passWrites pg₀ templ ms idF pg₀.length (i + 1) (cl.length + 1) rs := by
        rcases hl with hl | hl <;> rw [passWrites, hl]
      rw [hpc, hpw]
      simp only [List.append_assoc, List.singleton_append]

/-! ### The plan of a second pass over the already-synced page -/

theorem flatMap_congr_mem {α β : Type} :
    ∀ (l : List α) (f g : α → List β), (∀ a ∈ l, f a = g a) → l.flatMap f = l.flatMap g
  | [], _, _, _ => rfl
  | a :: l, f, g, h => by
    rw [List.flatMap_cons, List.flatMap_cons, h a (by simp),
      flatMap_congr_mem l f g (fun a₁ h₁ => h a₁ (by simp [h₁]))]

theorem clonedNode_ntype (templ : Node) (idF cid : String) (sY cw chh : Int)
    (i idx : Nat) (r : RecordT) :
    (clonedNode templ idF cid sY cw chh i idx r).ntype = templ.ntype := by
  cases templ
  rfl

theorem clonedNode_children (templ : Node) (idF cid : String) (sY cw chh : Int)
    (i idx : Nat) (r : RecordT) :
    (clonedNode templ idF cid sY cw chh i idx r).children = templ.children := by
  cases templ
  rfl

theorem pathWrites_at_clone (pg₀ : List Node) (templ : Node) (ms : List FieldMapping)
    (idF cid : String) (sY cw chh : Int) (pg₁ : List Node) (CL : List Node)
    (hsk : skeletonList pg₁ = skeletonList pg₀ ++ skeletonList CL)
    (hcont : hasChildren templ.ntype = true)
    (j jx : Nat) (rr : RecordT) (idx : Nat)
    (hc₀ : CL.get? idx = some (clonedNode templ idF cid sY cw chh j jx rr))
    (r : RecordT) :
    pathWrites pg₁ [pg₀.length + idx] r ms = (nodeWrites templ r ms).map
      (liftWrite [pg₀.length + idx]) := by
  have hview : (subAtList [pg₀.length + idx] pg₁).map skeleton =
      some (skeleton (clonedNode templ idF cid sY cw chh j jx rr)) := by
    have h1 := subAtList_skeleton_congr [pg₀.length + idx] pg₁ (pg₀ ++ CL)
      (by rw [hsk, skeletonList_append])
    rw [h1, subAtList_singleton, List.get?_append_right (by omega)]
    have : pg₀.length + idx - pg₀.length = idx := by omega
    rw [this, hc₀]
    rfl
  unfold pathWrites
  cases hs : subAtList [pg₀.length + idx] pg₁ with
  | none => rw [hs] at hview; simp at hview
  | some n =>
    rw [hs] at hview
    simp only [Option.map] at hview
    obtain hskn := Option.some.inj hview
    dsimp only
    have hnt : n.ntype = templ.ntype := by
      rw [(skeleton_eq_fields hskn).2.1, clonedNode_ntype]
    rw [if_pos (by rw [hnt]; exact hcont)]
    have hnw : nodeWrites n r ms = nodeWrites templ r ms := by
      rw [nodeWrites_skeleton_congr r ms n (clonedNode templ idF cid sY cw chh j jx rr) hskn,
        nodeWrites_congr_children r ms (clonedNode templ idF cid sY cw chh j jx rr) templ
          (clonedNode_children templ idF cid sY cw chh j jx rr)]
    rw [hnw]

theorem secondRun_plan (pg₀ : List Node) (templ : Node) (ms : List FieldMapping)
    (idF cid : String) (sY cw chh : Int) (pg₁ : List Node) (CL : List Node)
    (hsk : skeletonList pg₁ = skeletonList pg₀ ++ skeletonList CL)
    (hcont : hasChildren templ.ntype = true) :
    ∀ (ds : List RecordT) (i idx : Nat) (sY₂ cw₂ chh₂ : Int) (B idx₂ : Nat),
      (∀ k, k ∈ keyList idF i ds → taggedPaths pg₀ k ≠ [] →
        taggedPaths pg₁ k = taggedPaths pg₀ k) →
      (∀ k p, List.lookup k (missKeyPaths pg₀ idF pg₀.length i idx ds) = some p →
        taggedPaths pg₁ k = [p]) →
      ((missKeyPaths pg₀ idF pg₀.length i idx ds).map Prod.fst).Nodup →
      (∃ pre, CL = pre ++ passClones pg₀ templ idF cid sY cw chh i idx ds ∧
        pre.length = idx) →
      passClones pg₁ templ idF cid sY₂ cw₂ chh₂ i idx₂ ds = [] ∧
      passWrites pg₁ templ ms idF B i idx₂ ds =
        passWrites pg₀ templ ms idF pg₀.length i idx ds ∧
      missCount (buildExistingMap pg₁) idF i ds = 0 := by
  intro ds
  induction ds with
  | nil =>
    intro i idx sY₂ cw₂ chh₂ B idx₂ H1 H2 H3 H4
    exact ⟨rfl, rfl, rfl⟩
  | cons r rs ih =>
    intro i idx sY₂ cw₂ chh₂ B idx₂ H1 H2 H3 H4
    have hsplit : (∃ p ps, List.lookup (recordKey r idF i) (buildExistingMap pg₀) =
        some (p :: ps)) ∨
        (List.lookup (recordKey r idF i) (buildExistingMap pg₀) = none ∨
          List.lookup (recordKey r idF i) (buildExistingMap pg₀) = some []) := by
      cases List.lookup (recordKey r idF i) (buildExistingMap pg₀) with
      | none => exact Or.inr (Or.inl rfl)
      | some l =>
        cases l with
        | nil => exact Or.inr (Or.inr rfl)
        | cons p ps => exact Or.inl ⟨p, ps, rfl⟩
    rcases hsplit with ⟨p, ps, hl⟩ | hl
    · -- the record hit the original index; its entry is unchanged on the synced page
      have hb := lookup_buildExistingMap pg₀ (recordKey r idF i)
      rw [hl] at hb
      have htp₀ : taggedPaths pg₀ (recordKey r idF i) = p :: ps := by
        by_cases htp : taggedPaths pg₀ (recordKey r idF i) = []
        · rw [if_pos htp] at hb
          exact absurd hb (by simp)
        · rw [if_neg htp] at hb
          exact (Option.some.inj hb).symm
      have htp₁ : taggedPaths pg₁ (recordKey r idF i) = p :: ps := by
        rw [H1 (recordKey r idF i) (by rw [keyList]; simp) (by rw [htp₀]; simp), htp₀]
      have hb₁ : List.lookup (recordKey r idF i) (buildExistingMap pg₁) = some (p :: ps) := by
        rw [lookup_buildExistingMap, htp₁]
        rw [if_neg (by simp)]
      have hmk : missKeyPaths pg₀ idF pg₀.length i idx (r :: rs) =
          missKeyPaths pg₀ idF pg₀.length (i + 1) idx rs := by
        rw [missKeyPaths, hl]
      rw [hmk] at H2 H3
      have hH4 : ∃ pre, CL = pre ++ passClones pg₀ templ idF cid sY cw chh (i + 1) idx rs ∧
          pre.length = idx := by
        obtain ⟨pre, hpre, hlen⟩ := H4
        refine ⟨pre, ?_, hlen⟩
        rw [hpre]
        congr 1
        rw [passClones, hl]
      obtain ⟨hc₂, hw₂, hm₂⟩ := ih (i + 1) idx sY₂ cw₂ chh₂ B idx₂
        (fun k hk h0 => H1 k (by rw [keyList]; simp [hk]) h0) H2 H3 hH4
      refine ⟨?_, ?_, ?_⟩
      · rw [passClones, hb₁]
        exact hc₂
      · have hpw₁ : passWrites pg₁ templ ms idF B i idx₂ (r :: rs) =
            (p :: ps).flatMap (fun p₁ => pathWrites pg₁ p₁ r ms) ++
              passWrites pg₁ templ ms idF B (i + 1) idx₂ rs := by
          rw [passWrites, hb₁]
        have hpw₀ : passWrites pg₀ templ ms idF pg₀.length i idx (r :: rs) =
            (p :: ps).flatMap (fun p₁ => pathWrites pg₀ p₁ r ms) ++
              passWrites pg₀ templ ms idF pg₀.length (i + 1) idx rs := by
          rw [passWrites, hl]
        rw [hpw₁, hpw₀, hw₂]
        congr 1
        refine flatMap_congr_mem (p :: ps) _ _ (fun pth hpth => ?_)
        obtain ⟨n, hn, -⟩ := taggedPaths_sub pg₀ (recordKey r idF i) pth
          (by rw [htp₀]; exact hpth)
        refine pathWrites_congr pg₁ pg₀ pth r ms ?_
        have h1 := subAtList_skeleton_congr pth pg₁ (pg₀ ++ CL)
          (by rw [hsk, skeletonList_append])
        rw [h1, subAtList_append CL pth pg₀ n hn, hn]
      · rw [missCount, hb₁, hm₂]
    · -- the record missed the original index; on the synced page its key tags its clone
      have hmk : missKeyPaths pg₀ idF pg₀.length i idx (r :: rs) =
          (recordKey r idF i, [pg₀.length + idx]) ::
            missKeyPaths pg₀ idF pg₀.length (i + 1) (idx + 1) rs := by
        rcases hl with hl | hl <;> rw [missKeyPaths, hl]
      have hlookhead : List.lookup (recordKey r idF i)
          (missKeyPaths pg₀ idF pg₀.length i idx (r :: rs)) =
          some [pg₀.length + idx] := by
        rw [hmk, List.lookup]
        simp
      have htp₁ : taggedPaths pg₁ (recordKey r idF i) = [[pg₀.length + idx]] :=
        H2 (recordKey r idF i) [pg₀.length + idx] hlookhead
      have hb₁ : List.lookup (recordKey r idF i) (buildExistingMap pg₁) =
          some [[pg₀.length + idx]] := by
        rw [lookup_buildExistingMap, htp₁]
        rw [if_neg (by simp)]
      rw [hmk] at H3
      simp only [List.map_cons, List.nodup_cons] at H3
      obtain ⟨hknotin, H3tail⟩ := H3
      have H2tail : ∀ k p, List.lookup k (missKeyPaths pg₀ idF pg₀.length (i + 1) (idx + 1) rs) =
          some p → taggedPaths pg₁ k = [p] := by
        intro k p hlk
        by_cases hkk : k = recordKey r idF i
        · exfalso
          apply hknotin
          rw [← hkk]
          exact lookup_mem_entry k _ p hlk |> List.mem_map_of_mem Prod.fst
        · refine H2 k p ?_
          rw [hmk, List.lookup]
          have hbeq : (k == recordKey r idF i) = false := by
            simp only [beq_eq_false_iff_ne, ne_eq]
            exact hkk
          rw [hbeq]
          exact hlk
      obtain ⟨pre, hpre, hlen⟩ := H4
      have hpcmiss : passClones pg₀ templ idF cid sY cw chh i idx (r :: rs) =
          clonedNode templ idF cid sY cw chh i idx r ::
            passClones pg₀ templ idF cid sY cw chh (i + 1) (idx + 1) rs := by
        rcases hl with hl | hl <;> rw [passClones, hl]
      have hc₀ : CL.get? idx = some (clonedNode templ idF cid sY cw chh i idx r) := by
        rw [hpre, hpcmiss, List.get?_append_right (by omega)]
        have : idx - pre.length = 0 := by omega
        rw [this]
        rfl
      have hH4 : ∃ pre₁, CL = pre₁ ++ passClones pg₀ templ idF cid sY cw chh (i + 1) (idx + 1) rs ∧
          pre₁.length = idx + 1 := by
        refine ⟨pre ++ [clonedNode templ idF cid sY cw chh i idx r], ?_, by simp [hlen]⟩
        rw [hpre, hpcmiss, List.append_assoc, List.singleton_append]
      obtain ⟨hc₂, hw₂, hm₂⟩ := ih (i + 1) (idx + 1) sY₂ cw₂ chh₂ B idx₂
        (fun k hk h0 => H1 k (by rw [keyList]; simp [hk]) h0) H2tail H3tail hH4
      refine ⟨?_, ?_, ?_⟩
      · rw [passClones, hb₁]
        exact hc₂
      · have hpw₁ : passWrites pg₁ templ ms idF B i idx₂ (r :: rs) =
            [[pg₀.length + idx]].flatMap (fun p₁ => pathWrites pg₁ p₁ r ms) ++
              passWrites pg₁ templ ms idF B (i + 1) idx₂ rs := by
          rw [passWrites, hb₁]
        have hpwmiss : passWrites pg₀ templ ms idF pg₀.length i idx (r :: rs) =
            (nodeWrites templ r ms).map (liftWrite [pg₀.length + idx]) ++
              passWrites pg₀ templ ms idF pg₀.length (i + 1) (idx + 1) rs := by
          rcases hl with hl | hl <;> rw [passWrites, hl]
        rw [hpw₁, hpwmiss, hw₂]
        congr 1
        rw [List.flatMap_cons]
        rw [pathWrites_at_clone pg₀ templ ms idF cid sY cw chh pg₁ CL hsk hcont i idx r idx
          hc₀ r]
        simp
      · rw [missCount, hb₁, hm₂]

/-! ### Claim theorems: idempotence of a second pass (C1) -/

theorem taggedPaths_firstRun (pg₀ : List Node) (templ : Node) (idF cid : String)
    (sY cw chh : Int) (ds : List RecordT) (W : List TagWrite)
    (huntag : untaggedList templ.children = true)
    (hnod : ((missKeyPaths pg₀ idF pg₀.length 0 0 ds).map Prod.fst).Nodup) (k : String) :
    taggedPaths (applyTagWrites (pg₀ ++ passClones pg₀ templ idF cid sY cw chh 0 0 ds) W) k =
      taggedPaths pg₀ k ++
        (List.lookup k (missKeyPaths pg₀ idF pg₀.length 0 0 ds)).toList := by
  unfold taggedPaths
  rw [taggedPathsList_skeleton_congr k _
    (pg₀ ++ passClones pg₀ templ idF cid sY cw chh 0 0 ds)
    (skeletonList_applyTagWrites W _) [] 0]
  rw [taggedPathsList_append k [] pg₀ _ 0]
  congr 1
  have hpc := taggedPaths_passClones pg₀ templ idF cid sY cw chh pg₀.length huntag ds 0 0 k hnod
  simp only [Nat.add_zero] at hpc
  simp only [Nat.zero_add]
  exact hpc

/-- Claim C1, corrected and amended: as stated the idempotence claim is false
(see the counterexample below), but it holds under the conditions the claim
implicitly assumes: all record keys of the batch distinct, no node inside the
template carrying an identifier tag, and a container template (a TEXT or
other childless template makes the real insert-path code walk a missing
children mixin).  Then a second run with identical inputs returns exactly the
page of the first run, reports zero creations, and reports one update per
element tagged with each record key: N = sum over the batch of the size of
each key's index entry. -/
theorem sync_idempotent (pg₀ : List Node) (templ : Node) (ds : List RecordT)
    (ms : List FieldMapping) (idField componentId : String)
    (hds : ds ≠ []) (hms : ms ≠ [])
    (hkeys : (keyList idField 0 ds).Nodup)
    (huntag : untaggedList templ.children = true)
    (hcont : hasChildren templ.ntype = true) :
    ∃ (pg₁ : List Node) (c₁ u₁ : Nat),
      syncMappedData pg₀ (some templ) (some ds) (some ms) idField componentId =
        .done pg₁ (buildExistingMap pg₀) c₁ u₁ ∧
      syncMappedData pg₁ (some templ) (some ds) (some ms) idField componentId =
        .done pg₁ (buildExistingMap pg₁) 0 (tagCountSum pg₁ idField 0 ds) := by
  obtain ⟨d, ds', rfl⟩ := List.exists_cons_of_ne_nil hds
  obtain ⟨m, ms', rfl⟩ := List.exists_cons_of_ne_nil hms
  set CL := passClones pg₀ templ idField componentId (getNextAvailableY pg₀) templ.width
    templ.height 0 0 (d :: ds') with hCL
  set W := passWrites pg₀ templ (m :: ms') idField pg₀.length 0 0 (d :: ds') with hW
  set pg₁ := applyTagWrites (pg₀ ++ CL) W with hpg₁
  have hK₁ := syncLoop_page_writes pg₀ templ (m :: ms') idField componentId
    (getNextAvailableY pg₀) templ.width templ.height (d :: ds') 0 [] [] 0 0 (by simp)
  simp only [List.append_nil, List.nil_append, List.length_nil] at hK₁
  rw [show applyTagWrites pg₀ ([] : List TagWrite) = pg₀ from rfl] at hK₁
  have hopen₁ : syncMappedData pg₀ (some templ) (some (d :: ds')) (some (m :: ms'))
      idField componentId =
      .done (syncLoop templ (m :: ms') idField componentId (buildExistingMap pg₀)
          (getNextAvailableY pg₀) templ.width templ.height 0 (d :: ds')
          ⟨pg₀, 0, 0, 0⟩).page
        (buildExistingMap pg₀)
        (syncLoop templ (m :: ms') idField componentId (buildExistingMap pg₀)
          (getNextAvailableY pg₀) templ.width templ.height 0 (d :: ds')
          ⟨pg₀, 0, 0, 0⟩).createdCount
        (syncLoop templ (m :: ms') idField componentId (buildExistingMap pg₀)
          (getNextAvailableY pg₀) templ.width templ.height 0 (d :: ds')
          ⟨pg₀, 0, 0, 0⟩).updatedCount := rfl
  have hskpg₁ : skeletonList pg₁ = skeletonList pg₀ ++ skeletonList CL := by
    rw [hpg₁, skeletonList_applyTagWrites, skeletonList_append]
  have hnodmk : ((missKeyPaths pg₀ idField pg₀.length 0 0 (d :: ds')).map Prod.fst).Nodup :=
    List.Nodup.sublist
      (missKeyPaths_keys_sublist pg₀ idField pg₀.length (d :: ds') 0 0) hkeys
  have htpdecomp : ∀ k, taggedPaths pg₁ k = taggedPaths pg₀ k ++
      (List.lookup k (missKeyPaths pg₀ idField pg₀.length 0 0 (d :: ds'))).toList :=
    fun k => taggedPaths_firstRun pg₀ templ idField componentId (getNextAvailableY pg₀)
      templ.width templ.height (d :: ds') W huntag hnodmk k
  have H1 : ∀ k, k ∈ keyList idField 0 (d :: ds') → taggedPaths pg₀ k ≠ [] →
      taggedPaths pg₁ k = taggedPaths pg₀ k := by
    intro k hk h0
    rw [htpdecomp k]
    have hnone : List.lookup k (missKeyPaths pg₀ idField pg₀.length 0 0 (d :: ds')) = none := by
      cases hlk : List.lookup k (missKeyPaths pg₀ idField pg₀.length 0 0 (d :: ds')) with
      | none => rfl
      | some p =>
        obtain ⟨htp0, -⟩ := missKeyPaths_miss pg₀ idField pg₀.length (d :: ds') 0 0 k p
          (lookup_mem_entry k _ p hlk)
        exact absurd htp0 h0
    rw [hnone]
    simp
  have H2 : ∀ k p, List.lookup k (missKeyPaths pg₀ idField pg₀.length 0 0 (d :: ds')) =
      some p → taggedPaths pg₁ k = [p] := by
    intro k p hlk
    rw [htpdecomp k]
    obtain ⟨htp0, -⟩ := missKeyPaths_miss pg₀ idField pg₀.length (d :: ds') 0 0 k p
      (lookup_mem_entry k _ p hlk)
    rw [htp0, hlk]
    rfl
  obtain ⟨hCL₂, hW₂, hmiss₂⟩ := secondRun_plan pg₀ templ (m :: ms') idField componentId
    (getNextAvailableY pg₀) templ.width templ.height pg₁ CL hskpg₁ hcont (d :: ds') 0 0
    (getNextAvailableY pg₁) templ.width templ.height pg₁.length 0 H1 H2 hnodmk
    ⟨[], by rw [hCL, List.nil_append], rfl⟩
  have hK₂ := syncLoop_page_writes pg₁ templ (m :: ms') idField componentId
    (getNextAvailableY pg₁) templ.width templ.height (d :: ds') 0 [] [] 0 0 (by simp)
  simp only [List.append_nil, List.nil_append, List.length_nil] at hK₂
  rw [show applyTagWrites pg₁ ([] : List TagWrite) = pg₁ from rfl] at hK₂
  rw [hCL₂, hW₂, List.append_nil] at hK₂
  have hpage₂ : (syncLoop templ (m :: ms') idField componentId (buildExistingMap pg₁)
      (getNextAvailableY pg₁) templ.width templ.height 0 (d :: ds')
      ⟨pg₁, 0, 0, 0⟩).page = pg₁ := by
    rw [hK₂, hpg₁]
    exact applyTagWrites_idem W (pg₀ ++ CL)
  obtain ⟨hc₂c, hu₂c, -⟩ := syncLoop_counts templ (m :: ms') idField componentId
    (buildExistingMap pg₁) (getNextAvailableY pg₁) templ.width templ.height (d :: ds') 0
    ⟨pg₁, 0, 0, 0⟩
  rw [hmiss₂] at hc₂c
  rw [hitTotal_eq_tagCountSum pg₁ idField (d :: ds') 0] at hu₂c
  have hopen₂ : syncMappedData pg₁ (some templ) (some (d :: ds')) (some (m :: ms'))
      idField componentId =
      .done (syncLoop templ (m :: ms') idField componentId (buildExistingMap pg₁)
          (getNextAvailableY pg₁) templ.width templ.height 0 (d :: ds')
          ⟨pg₁, 0, 0, 0⟩).page
        (buildExistingMap pg₁)
        (syncLoop templ (m :: ms') idField componentId (buildExistingMap pg₁)
          (getNextAvailableY pg₁) templ.width templ.height 0 (d :: ds')
          ⟨pg₁, 0, 0, 0⟩).createdCount
        (syncLoop templ (m :: ms') idField componentId (buildExistingMap pg₁)
          (getNextAvailableY pg₁) templ.width templ.height 0 (d :: ds')
          ⟨pg₁, 0, 0, 0⟩).updatedCount := rfl
  refine ⟨pg₁,
    (syncLoop templ (m :: ms') idField componentId (buildExistingMap pg₀)
      (getNextAvailableY pg₀) templ.width templ.height 0 (d :: ds')
      ⟨pg₀, 0, 0, 0⟩).createdCount,
    (syncLoop templ (m :: ms') idField componentId (buildExistingMap pg₀)
      (getNextAvailableY pg₀) templ.width templ.height 0 (d :: ds')
      ⟨pg₀, 0, 0, 0⟩).updatedCount, ?_, ?_⟩
  · rw [hopen₁, hK₁]
  · rw [hopen₂, hpage₂, hc₂c, hu₂c]
    simp

/-- Counterexample to claim C1 as stated: the claim quantifies over every
record batch, but a batch with two records carrying the same identifier is
not idempotent.  On an empty page both records take the insert path (the
index is never extended during a pass), producing two cards tagged "a" whose
texts are "x" and "y"; the second run finds both cards under the shared key
and rewrites both with each record in turn, so both end as "y" — the first
card's content changed, and the second run reports 4 updates, not
2 = distinct identifiers x elements-per-identifier. -/
theorem sync_not_idempotent_duplicates :
    ((subAtList [0, 0] (syncMappedData [] (some sampleCard)
        (some [[("id", Value.str "a"), ("f", Value.str "x")],
          [("id", Value.str "a"), ("f", Value.str "y")]])
        (some [sampleMapping]) "id" "c").pageOf).map Node.characters = some "x") ∧
    ((subAtList [0, 0] (syncMappedData (syncMappedData [] (some sampleCard)
        (some [[("id", Value.str "a"), ("f", Value.str "x")],
          [("id", Value.str "a"), ("f", Value.str "y")]])
        (some [sampleMapping]) "id" "c").pageOf (some sampleCard)
        (some [[("id", Value.str "a"), ("f", Value.str "x")],
          [("id", Value.str "a"), ("f", Value.str "y")]])
        (some [sampleMapping]) "id" "c").pageOf).map Node.characters = some "y") ∧
    ((syncMappedData (syncMappedData [] (some sampleCard)
        (some [[("id", Value.str "a"), ("f", Value.str "x")],
          [("id", Value.str "a"), ("f", Value.str "y")]])
        (some [sampleMapping]) "id" "c").pageOf (some sampleCard)
        (some [[("id", Value.str "a"), ("f", Value.str "x")],
          [("id", Value.str "a"), ("f", Value.str "y")]])
        (some [sampleMapping]) "id" "c").countsOf = some (0, 4)) := by
  refine ⟨?_, ?_, ?_⟩ <;> rfl

/-- Witness for the amended C1 theorem: a page holding one card already
tagged "a" and a batch with keys "a" and "b" satisfies every hypothesis, and
the theorem yields the fixed second run. -/
theorem sync_idempotent_witness :
    (([[("id", Value.str "a"), ("f", Value.str "x")],
        [("id", Value.str "b"), ("f", Value.str "y")]] : List RecordT) ≠ [] ∧
      ([sampleMapping] : List FieldMapping) ≠ [] ∧
      (keyList "id" 0 [[("id", Value.str "a"), ("f", Value.str "x")],
        [("id", Value.str "b"), ("f", Value.str "y")]]).Nodup ∧
      untaggedList sampleCard.children = true ∧
      hasChildren sampleCard.ntype = true) ∧
    (∃ (pg₁ : List Node) (c₁ u₁ : Nat),
      syncMappedData [sampleTagged] (some sampleCard)
          (some [[("id", Value.str "a"), ("f", Value.str "x")],
            [("id", Value.str "b"), ("f", Value.str "y")]])
          (some [sampleMapping]) "id" "c" =
        .done pg₁ (buildExistingMap [sampleTagged]) c₁ u₁ ∧
      syncMappedData pg₁ (some sampleCard)
          (some [[("id", Value.str "a"), ("f", Value.str "x")],
            [("id", Value.str "b"), ("f", Value.str "y")]])
          (some [sampleMapping]) "id" "c" =
        .done pg₁ (buildExistingMap pg₁) 0
          (tagCountSum pg₁ "id" 0 [[("id", Value.str "a"), ("f", Value.str "x")],
            [("id", Value.str "b"), ("f", Value.str "y")]])) :=
  ⟨⟨by simp, by simp, by decide, by decide, by decide⟩,
    sync_idempotent [sampleTagged] sampleCard
      [[("id", Value.str "a"), ("f", Value.str "x")],
        [("id", Value.str "b"), ("f", Value.str "y")]]
      [sampleMapping] "id" "c" (by simp) (by simp) (by decide) (by decide) (by decide)⟩

end SyncFromNotion
